import Mathlib

/-!
# libsemigroups: `shortlex_words` and the presentation facade

A shallow embedding of `src/order.cpp` (the function `shortlex_words`) with the
properties of its output, followed by a model of the `FpSemigroup` facade,
whose implementation is not among the sources, taken from the specification.

Modelling conventions.

* `size_t` is a natural number below `2 ^ 64`.  The only counter of
  `shortlex_words` that can wrap is the outer counter `i` (its loop test is
  `i <= maxlen`), so its increment is taken modulo `2 ^ 64`.  The counters `j`
  and `k` are tested with `<` against a `size_t`, hence never wrap.
* `std::vector` is a `List`; memory is unbounded, so `out.size()` is the
  length of the list.
* `out.at(j)` throws `std::out_of_range` when `j` is not an index; erasing
  past the end is undefined behaviour.  Both are explicit outcomes.
* The outer loop need not terminate, so it is run with a step budget.
-/

namespace libsemigroups

/-! ## The embedding of `order.cpp` -/

/-- Modelled from the spec: `word_type` (declared in `types.hpp`, which is not
among the sources) is a finite sequence of letters, each a `size_t` index into
the alphabet. -/
abbrev word_type := List Nat

/-- Largest value of a `size_t` (64 bits wide). -/
def SIZE_MAX : Nat := 2 ^ 64 - 1

/-- How a run of (a piece of) the program ends. -/
inductive Outcome (α : Type) where
  /-- Normal completion with a value. -/
  | ok (a : α)
  /-- The call `out.at(j)` threw `std::out_of_range`. -/
  | at_throws
  /-- The range handed to `out.erase` ends past `out.end()`. -/
  | erase_past_end
  /-- The step budget of the outer loop ran out before the loop ended. -/
  | no_fuel
  deriving DecidableEq, Repr

/-- Sequencing of outcomes. -/
def Outcome.andThen {α β : Type} : Outcome α → (α → Outcome β) → Outcome β
  | .ok a, f => f a
  | .at_throws, _ => .at_throws
  | .erase_past_end, _ => .erase_past_end
  | .no_fuel, _ => .no_fuel

/-- The loop `for (size_t x = lo; x < hi; ++x) body`, where `body` changes
neither `x` nor `hi`: `for_lt body (hi - lo) lo` runs `body lo`, `body (lo+1)`,
..., `body (hi-1)` in turn, stopping at the first failure. -/
def for_lt {σ : Type} (body : Nat → σ → Outcome σ) : Nat → Nat → σ → Outcome σ
  | 0, _, s => .ok s
  | n + 1, x, s => (body x s).andThen (for_lt body n (x + 1))

/-- Lines 33-35: `out.push_back({i})`. -/
def push_letter (i : Nat) (out : List word_type) : Outcome (List word_type) :=
  .ok (out ++ [[i]])

/-- Lines 41-43: `nxt = out.at(j); nxt.push_back(k); out.push_back(nxt)`. -/
def push_nxt (j k : Nat) (out : List word_type) : Outcome (List word_type) :=
  match out[j]? with
  | none => .at_throws
  | some nxt => .ok (out ++ [nxt ++ [k]])

/-- Lines 40-44: the loop over `k` for one `j`. -/
def loop_k (nr_gens j : Nat) (out : List word_type) : Outcome (List word_type) :=
  for_lt (push_nxt j) nr_gens 0 out

/-- Lines 39-45: the loop over `j` from `frst` to `last`. -/
def loop_j (nr_gens frst last : Nat) (out : List word_type) :
    Outcome (List word_type) :=
  for_lt (loop_k nr_gens) (last - frst) frst out

/-- The local variables of `shortlex_words` at the head of the outer loop. -/
structure State where
  out : List word_type
  cut : Nat
  frst : Nat
  last : Nat
  i : Nat
  deriving DecidableEq, Repr

/-- Lines 39-50 and the `++i` of line 38: one pass through the outer loop. -/
def outer_body (nr_gens minlen : Nat) (s : State) : Outcome State :=
  (loop_j nr_gens s.frst s.last s.out).andThen fun out =>
    .ok { out := out
          cut := if s.i = minlen then s.last else s.cut
          frst := s.last
          last := out.length
          i := (s.i + 1) % 2 ^ 64 }

/-- Lines 38-51: the outer loop `for (...; i <= maxlen; ++i)`, run for at most
`fuel` passes. -/
def outer_loop (nr_gens minlen maxlen : Nat) : Nat → State → Outcome State
  | 0, s => if s.i ≤ maxlen then .no_fuel else .ok s
  | fuel + 1, s =>
    if s.i ≤ maxlen then
      (outer_body nr_gens minlen s).andThen (outer_loop nr_gens minlen maxlen fuel)
    else .ok s

/-- Line 52: `out.erase(out.begin(), out.begin() + cut)`. -/
def erase_front (cut : Nat) (out : List word_type) : Outcome (List word_type) :=
  if cut ≤ out.length then .ok (out.drop cut) else .erase_past_end

/-- The function `shortlex_words(nr_gens, minlen, maxlen)` of `order.cpp`, its
outer loop run for at most `fuel` passes. -/
def shortlex_words (fuel nr_gens minlen maxlen : Nat) : Outcome (List word_type) :=
  (for_lt push_letter nr_gens 0 []).andThen fun out =>
    (outer_loop nr_gens minlen maxlen fuel
        { out := out, cut := 0, frst := 0, last := nr_gens, i := 2 }).andThen fun s =>
      erase_front s.cut s.out


/-! ## Reference enumeration used in the proofs -/

/-- Every word of `ws` followed by each letter `0, ..., nr_gens - 1` in turn. -/
def extend (nr_gens : Nat) (ws : List word_type) : List word_type :=
  ws.flatMap fun w => (List.range nr_gens).map fun k => w ++ [k]

/-- All words of length `L` over `nr_gens` letters, in lexicographic order. -/
def words_of_length (nr_gens : Nat) : Nat → List word_type
  | 0 => [[]]
  | L + 1 => extend nr_gens (words_of_length nr_gens L)

/-- The words of length `lo`, then those of length `lo + 1`, ..., up to length
`lo + c - 1`. -/
def words_from (nr_gens lo : Nat) : Nat → List word_type
  | 0 => []
  | c + 1 => words_from nr_gens lo c ++ words_of_length nr_gens (lo + c)

/-- The number of entries erased at the end: the words shorter than `minlen`
when `2 ≤ minlen ≤ maxlen`, and none otherwise. -/
def cut_at (nr_gens minlen maxlen : Nat) : Nat :=
  if 2 ≤ minlen ∧ minlen ≤ maxlen then (words_from nr_gens 1 (minlen - 1)).length else 0

/-- The state at the head of the outer loop once `out` holds the words of
length `1` to `L`. -/
def state_at (nr_gens minlen L : Nat) : State :=
  { out := words_from nr_gens 1 L
    cut := cut_at nr_gens minlen L
    frst := (words_from nr_gens 1 (L - 1)).length
    last := (words_from nr_gens 1 L).length
    i := L + 1 }

/-! ## The shortlex order -/

/-- Modelled from the spec: lexicographic comparison of two words on their
letter indices (section 4.1; the comparison functions of `order.hpp` are not
among the sources). -/
def lex_less : word_type → word_type → Bool
  | [], [] => false
  | [], _ :: _ => true
  | _ :: _, [] => false
  | a :: u, b :: v => decide (a < b) || (a == b && lex_less u v)

/-- Modelled from the spec: the strict shortlex order (section 4.1; the
comparison functions of `order.hpp` are not among the sources): a shorter word
is smaller, and two words of equal length compare lexicographically on letter
indices. -/
def shortlex_less (u v : word_type) : Bool :=
  decide (u.length < v.length) || (u.length == v.length && lex_less u v)

/-! ## The presentation facade `FpSemigroup`

The class `FpSemigroup` and the engines behind it are declared in headers that
are not among the sources (only `tests/test-fpsemi.cpp` is), so the
definitions of this section follow the specification. -/

/-- Modelled from the spec: `relation_type` (declared in `types.hpp`, which is
not among the sources) is a pair of words `(u, v)` meaning `u = v`, stored as
an ordered pair. -/
abbrev relation_type := word_type × word_type

/-- Modelled from the spec: the error kinds (section 7) that building a
presentation can raise; the `FpSemigroup` class raising them is not among the
sources. -/
inductive Failure where
  /-- A relation contains a letter outside the alphabet. -/
  | PresentationError
  /-- The presentation is changed after an engine has started. -/
  | PresentationFrozen
  deriving DecidableEq, Repr

/-- Modelled from the spec: the state of `FpSemigroup` (`fpsemi.hpp` is not
among the sources): the alphabet size, the relation list in insertion order,
and whether an engine has started, which freezes the presentation.  The
identity marker and the engines' caches play no part below and are left out. -/
structure FpSemigroup where
  alphabet_size : Nat
  rules : List relation_type
  started : Bool
  deriving DecidableEq, Repr

/-- Modelled from the spec: a word over the alphabet has every letter
`< alphabet_size` (the check made by the absent `FpSemigroup::add_rule`). -/
def valid_word (alphabet_size : Nat) (w : word_type) : Bool :=
  w.all fun x => decide (x < alphabet_size)

/-- Modelled from the spec: `FpSemigroup::add_rule(u, v)` (not among the
sources) appends the relation to the presentation; it fails with
`PresentationFrozen` once an engine has started and with `PresentationError`
when a letter is out of range. -/
def FpSemigroup.add_rule (S : FpSemigroup) (u v : word_type) :
    Except Failure FpSemigroup :=
  if S.started then .error .PresentationFrozen
  else if valid_word S.alphabet_size u && valid_word S.alphabet_size v then
    .ok { S with rules := S.rules ++ [(u, v)] }
  else .error .PresentationError

/-- Modelled from the spec: one call of the absent `FpSemigroup::add_rule` as
the caller sees the object afterwards: a failed call aborts the operation and
leaves the presentation as it was. -/
def FpSemigroup.call_add_rule (S : FpSemigroup) (r : relation_type) : FpSemigroup :=
  match S.add_rule r.1 r.2 with
  | .ok T => T
  | .error _ => S

/-- Modelled from the spec: the range `cbegin_rules() .. cend_rules()` of the
absent `FpSemigroup`, read out as a list of pairs of words. -/
def FpSemigroup.rules_range (S : FpSemigroup) : List relation_type :=
  S.rules

/-- Modelled from the spec: the letter index of a character under the 1:1 map
between a charset and the letter indices (the conversion lives in the absent
`FpSemigroup`). -/
def char_to_letter (charset : List Char) (c : Char) : Option Nat :=
  if charset.indexOf c < charset.length then some (charset.indexOf c) else none

/-- Modelled from the spec: a string over the charset read as a word (absent
`FpSemigroup` string overloads). -/
def string_to_word (charset : List Char) : List Char → Option word_type
  | [] => some []
  | c :: s =>
    match char_to_letter charset c, string_to_word charset s with
    | some i, some w => some (i :: w)
    | _, _ => none

/-- Modelled from the spec: a word presented as a string over the charset
(absent `FpSemigroup` string overloads). -/
def word_to_string (charset : List Char) (w : word_type) : List Char :=
  w.map fun i => charset.getD i 'a'

/-- Modelled from the spec: the congruence of a presentation (its engines are
not among the sources): the smallest equivalence relation on the free monoid
closed under the relations and under concatenation on both sides. -/
inductive congruent (rels : List relation_type) : word_type → word_type → Prop where
  | rel (u v : word_type) : (u, v) ∈ rels → congruent rels u v
  | refl (u : word_type) : congruent rels u u
  | symm (u v : word_type) : congruent rels u v → congruent rels v u
  | trans (u v w : word_type) : congruent rels u v → congruent rels v w → congruent rels u w
  | mul (x y u v : word_type) : congruent rels u v →
      congruent rels (x ++ u ++ y) (x ++ v ++ y)

/-- Modelled from the spec: `FpSemigroup::equal_to(u, v)` (not among the
sources) decides whether two words are equal in the quotient. -/
def FpSemigroup.equal_to (S : FpSemigroup) (u v : word_type) : Prop :=
  congruent S.rules u v

/-- Modelled from the spec: the elements of the semigroup of a presentation
without identity (the absent `FpSemigroup`): the non-empty words over the
alphabet. -/
def FpSemigroup.element (S : FpSemigroup) : Type :=
  { w : word_type // w ≠ [] ∧ valid_word S.alphabet_size w = true }

/-- Modelled from the spec: equality of elements in the quotient (absent
`FpSemigroup`). -/
def FpSemigroup.setoid (S : FpSemigroup) : Setoid S.element where
  r a b := congruent S.rules a.1 b.1
  iseqv := ⟨fun a => congruent.refl a.1, fun h => congruent.symm _ _ h,
    fun h1 h2 => congruent.trans _ _ _ h1 h2⟩

/-- Modelled from the spec: `FpSemigroup::size()` (not among the sources)
returns the element count of the quotient, `POSITIVE_INFINITY` (here `⊤`) when
there are infinitely many; `size_is S n` says that `n` is that count. -/
def FpSemigroup.size_is (S : FpSemigroup) (n : ℕ∞) : Prop :=
  ENat.card (Quotient S.setoid) = n

/-- Modelled from the spec: the word is a non-empty power of the letter (test
used by the finiteness heuristics of the absent `FpSemigroup`). -/
def is_power_of (a : Nat) (w : word_type) : Bool :=
  !w.isEmpty && w.all fun x => x == a

/-- Modelled from the spec: the relation bounds the powers of the letter
(section 4.6, heuristics of the absent `FpSemigroup`): oriented by the
reduction order, its left side is a power of the letter and its right side is
shorter.  Relations are used symmetrically. -/
def bounds_powers (a : Nat) (r : relation_type) : Bool :=
  (is_power_of a r.1 && decide (r.2.length < r.1.length)) ||
  (is_power_of a r.2 && decide (r.1.length < r.2.length))

/-- Modelled from the spec: some relation of the presentation bounds the powers
of the letter (section 4.6, heuristics of the absent `FpSemigroup`). -/
def FpSemigroup.bounded_letter (S : FpSemigroup) (a : Nat) : Bool :=
  S.rules.any (bounds_powers a)

/-- Modelled from the spec: a relation identifies the letter with a letter
whose powers are bounded (section 4.6, heuristics of the absent
`FpSemigroup`). -/
def FpSemigroup.identified_with_bounded (S : FpSemigroup) (a : Nat) : Bool :=
  (List.range S.alphabet_size).any fun b =>
    S.bounded_letter b && S.rules.any fun r => r == ([a], [b]) || r == ([b], [a])

/-- Modelled from the spec: `FpSemigroup::is_obviously_infinite()` (not among
the sources) holds when at least one letter has no relation bounding its powers
and no identification with a bounded letter (section 4.6). -/
def FpSemigroup.is_obviously_infinite (S : FpSemigroup) : Bool :=
  (List.range S.alphabet_size).any fun a =>
    !S.bounded_letter a && !S.identified_with_bounded a

/-- Modelled from the spec: one application of a rewrite rule `l → r` of a
Knuth-Bendix system (the engine is not among the sources): an occurrence of `l`
as a factor is replaced by `r`. -/
inductive rewrite_step (R : List relation_type) : word_type → word_type → Prop where
  | replace (x y l r : word_type) : (l, r) ∈ R →
      rewrite_step R (x ++ l ++ y) (x ++ r ++ y)

/-- Modelled from the spec: no left side of a rule occurs as a factor of the
word, the stopping test of `rewrite` in the absent Knuth-Bendix engine. -/
def irreducible (R : List relation_type) (w : word_type) : Prop :=
  ∀ w', ¬ rewrite_step R w w'

/-- Modelled from the spec: `rewrite(w)` of the absent Knuth-Bendix engine
applies rules to `w` until no left side occurs as a factor; `rewrites_to R w x`
says that `x` is a word it can return, which `normal_form(w)` hands on. -/
def rewrites_to (R : List relation_type) (w x : word_type) : Prop :=
  Relation.ReflTransGen (rewrite_step R) w x ∧ irreducible R x

/-- Modelled from the spec: a rewrite system (of the absent Knuth-Bendix
engine) is confluent when every word over the alphabet has a unique normal
form (glossary). -/
def confluent (alphabet_size : Nat) (R : List relation_type) : Prop :=
  ∀ w, valid_word alphabet_size w = true → ∃! x, rewrites_to R w x

/-- Modelled from the spec: the rules of a rewrite system are over the
alphabet (data-model invariant of the absent engine). -/
def valid_rules (alphabet_size : Nat) (R : List relation_type) : Prop :=
  ∀ r ∈ R, valid_word alphabet_size r.1 = true ∧ valid_word alphabet_size r.2 = true

/-! ## Invariants used for the seed presentation `aaa = a`, `a = bb` -/

/-- The exponent of `b` that a word over `{a, b}` stands for when `a = bb`:
letter `0` counts twice, every other letter once. -/
def weight : word_type → Nat
  | [] => 0
  | x :: w => (if x = 0 then 2 else 1) + weight w

/-- The exponent reduced by `b^6 = b^2` (index 2, period 4). -/
def reduce_exponent (m : Nat) : Nat :=
  if m < 6 then m else 2 + (m - 2) % 4

/-- The presentation of seed scenario 1 and of tests 033 and 039: alphabet
`{a, b}` with the rules `aaa = a` and `a = bb`. -/
def seed_presentation : FpSemigroup :=
  { alphabet_size := 2, rules := [([0, 0, 0], [0]), ([0], [1, 1])], started := false }

/-- The presentation of seed scenario 4 and of tests 041 and 042: alphabet
`{a, b}` with the rules `aa = a`, `ab = a` and `ba = a`. -/
def scenario_four : FpSemigroup :=
  { alphabet_size := 2, rules := [([0, 0], [0]), ([0, 1], [0]), ([1, 0], [0])],
    started := false }

/-- Modelled from the spec: the state of a Todd-Coxeter engine whose
enumeration is over (the engine is not among the sources): the compacted coset
table `table[c][g]` with coset 0 the identity class, the word
`class_to_word(c)` of every coset, and the computed bound on the length of the
words among which normal forms are searched. -/
structure ToddCoxeter where
  table : List (List Nat)
  words : List word_type
  bound : Nat

/-- Modelled from the spec: the entry of the coset table for a coset and a
generator, a partial map (absent Todd-Coxeter engine). -/
def ToddCoxeter.lookup (T : ToddCoxeter) (c g : Nat) : Option Nat :=
  (T.table[c]?).bind fun row => row[g]?

/-- Modelled from the spec: the coset reached from coset `c` by following the
letters of a word through the table (absent Todd-Coxeter engine). -/
def ToddCoxeter.trace (T : ToddCoxeter) : Nat → word_type → Option Nat
  | c, [] => some c
  | c, g :: w => (T.lookup c g).bind fun d => T.trace d w

/-- Modelled from the spec: `word_to_class(w)` of the absent Todd-Coxeter
engine, the coset lookup of a word from the identity coset 0. -/
def ToddCoxeter.word_to_class (T : ToddCoxeter) (w : word_type) : Option Nat :=
  T.trace 0 w

/-- Modelled from the spec: `class_to_word(c)` of the absent Todd-Coxeter
engine. -/
def ToddCoxeter.class_to_word (T : ToddCoxeter) (c : Nat) : word_type :=
  T.words.getD c []

/-- Modelled from the spec: a Todd-Coxeter engine (not among the sources) has
finished for a presentation when coset 0 is alive, every entry for a live
coset and a generator is defined, every entry is a live coset, every relation
traces to the same coset from every coset, and the words of the cosets are
words over the alphabet within the bound that reach their coset, with the
table consistent with the congruence: the word of coset 0 is empty and the word
of `c` followed by `g` is congruent to the word of `table[c][g]`. -/
def ToddCoxeter.finished (T : ToddCoxeter) (S : FpSemigroup) : Prop :=
  0 < T.table.length ∧
  (∀ c < T.table.length, ∀ g < S.alphabet_size, (T.lookup c g).isSome = true) ∧
  (∀ row ∈ T.table, ∀ d ∈ row, d < T.table.length) ∧
  (∀ r ∈ S.rules, ∀ c < T.table.length, T.trace c r.1 = T.trace c r.2) ∧
  T.class_to_word 0 = [] ∧
  (∀ c < T.table.length, valid_word S.alphabet_size (T.class_to_word c) = true ∧
    (T.class_to_word c).length ≤ T.bound ∧
    T.word_to_class (T.class_to_word c) = some c) ∧
  ∀ c < T.table.length, ∀ g d, T.lookup c g = some d →
    congruent S.rules (T.class_to_word c ++ [g]) (T.class_to_word d)

/-- Modelled from the spec: the answer of the facade through a finished
Todd-Coxeter engine (not among the sources): the coset lookup of the word and
the fixed tie-break, the lexicographically least word in the class among the
words over the alphabet up to the computed bound (section 5). -/
def ToddCoxeter.least_in_class (T : ToddCoxeter) (alphabet_size : Nat)
    (w x : word_type) : Prop :=
  valid_word alphabet_size x = true ∧ x.length ≤ T.bound ∧
  T.word_to_class x = T.word_to_class w ∧
  ∀ y, valid_word alphabet_size y = true → y.length ≤ T.bound →
    T.word_to_class y = T.word_to_class w → lex_less y x = false

/-- Modelled from the spec: the engine that answers a word query of the
facade (engines and facade are not among the sources): a Knuth-Bendix engine
with its rewriting system, or a Todd-Coxeter engine with its coset table. -/
inductive Engine where
  | knuth_bendix (R : List relation_type)
  | todd_coxeter (T : ToddCoxeter)

/-- Modelled from the spec: the answering engine of the absent `FpSemigroup`
is confluent or finished.  A Knuth-Bendix system is over the alphabet,
confluent, and equivalent to the presentation's congruence (each of its rules
follows from the relations and each relation from its rules); a Todd-Coxeter
engine has finished for the presentation. -/
def Engine.answers (S : FpSemigroup) : Engine → Prop
  | .knuth_bendix R =>
    valid_rules S.alphabet_size R ∧ confluent S.alphabet_size R ∧
    (∀ r ∈ R, congruent S.rules r.1 r.2) ∧ ∀ r ∈ S.rules, congruent R r.1 r.2
  | .todd_coxeter T => T.finished S

/-- Modelled from the spec: `FpSemigroup::normal_form(w)` (not among the
sources) is dispatched to the answering engine: a Knuth-Bendix engine returns
a word that `rewrite(w)` ends in, a Todd-Coxeter engine the lexicographically
least word in the class of `w` up to the computed bound. -/
def normal_form_is (alphabet_size : Nat) : Engine → word_type → word_type → Prop
  | .knuth_bendix R, w, x => rewrites_to R w x
  | .todd_coxeter T, w, x => T.least_in_class alphabet_size w x

/-- The coset table of a finished Todd-Coxeter enumeration for the seed
presentation `aaa = a`, `a = bb`: coset `k` is the class of `b^k`, so letter
`a` adds 2 and letter `b` adds 1 to the exponent, with `b^6 = b^2`. -/
def seed_todd_coxeter : ToddCoxeter :=
  { table := [[2, 1], [3, 2], [4, 3], [5, 4], [2, 5], [3, 2]]
    words := [[], [1], [0], [0, 1], [0, 0], [0, 0, 1]]
    bound := 3 }

/-! ## Positional digits -/

/-- The `L` base-`n` digits of `k`, most significant digit first. -/
def base_digits (n : Nat) : Nat → Nat → word_type
  | 0, _ => []
  | L + 1, k => base_digits n L (k / n) ++ [k % n]

/-! ## The invariant of the outer loop -/

/-- At the head of the outer loop the range `[frst, last)` that the next pass
traverses lies inside `out`, and the recorded `cut` does not exceed `last`. -/
def loop_invariant (s : State) : Prop :=
  s.frst ≤ s.last ∧ s.last ≤ s.out.length ∧ s.cut ≤ s.last

/-- The locals of `shortlex_words` when the outer loop is entered (after lines
31-37). -/
def initial_state (nr_gens : Nat) : State :=
  { out := (List.range nr_gens).map fun i => [i]
    cut := 0
    frst := 0
    last := nr_gens
    i := 2 }

/-! ## The loops -/

theorem for_lt_push_letter (n x : Nat) (out : List word_type) :
    for_lt push_letter n x out = .ok (out ++ (List.range' x n).map fun i => [i]) := by
  induction n generalizing x out with
  | zero => simp [for_lt]
  | succ n ih =>
    simp [for_lt, push_letter, Outcome.andThen, ih, List.range'_succ]

theorem for_lt_push_nxt (j n x : Nat) (out : List word_type) (w : word_type)
    (hw : out[j]? = some w) :
    for_lt (push_nxt j) n x out
      = .ok (out ++ (List.range' x n).map fun k => w ++ [k]) := by
  induction n generalizing x out with
  | zero => simp [for_lt]
  | succ n ih =>
    have hj : j < out.length := (List.getElem?_eq_some_iff.mp hw).1
    have hw2 : (out ++ [w ++ [x]])[j]? = some w := by
      rw [List.getElem?_append_left hj]; exact hw
    simp [for_lt, push_nxt, hw, Outcome.andThen, ih _ _ hw2, List.range'_succ]

theorem loop_k_eq (n j : Nat) (out : List word_type) (w : word_type)
    (hw : out[j]? = some w) :
    loop_k n j out = .ok (out ++ extend n [w]) := by
  simp [loop_k, for_lt_push_nxt j n 0 out w hw, extend, List.range_eq_range']

theorem extend_append (n : Nat) (a b : List word_type) :
    extend n (a ++ b) = extend n a ++ extend n b := by
  simp [extend]

theorem for_lt_loop_k (n m frst : Nat) (base acc : List word_type)
    (h : frst + m ≤ base.length) :
    for_lt (loop_k n) m frst (base ++ acc)
      = .ok (base ++ acc ++ extend n ((base.drop frst).take m)) := by
  induction m generalizing frst acc with
  | zero => simp [for_lt, extend]
  | succ m ih =>
    have hlt : frst < base.length := by omega
    have hw : (base ++ acc)[frst]? = some base[frst] := by
      rw [List.getElem?_append_left hlt]; exact List.getElem?_eq_getElem hlt
    have hd : base.drop frst = base[frst] :: base.drop (frst + 1) :=
      List.drop_eq_getElem_cons hlt
    have hstep := ih (frst + 1) (acc ++ extend n [base[frst]]) (by omega)
    rw [for_lt, loop_k_eq n frst _ _ hw, Outcome.andThen, List.append_assoc, hstep, hd,
      List.take_succ_cons]
    simp [extend]

theorem loop_j_eq (n frst last : Nat) (out : List word_type)
    (h1 : frst ≤ last) (h2 : last ≤ out.length) :
    loop_j n frst last out
      = .ok (out ++ extend n ((out.drop frst).take (last - frst))) := by
  have h := for_lt_loop_k n (last - frst) frst out [] (by omega)
  simpa [loop_j] using h

theorem length_words_from_succ (n lo c : Nat) :
    (words_from n lo (c + 1)).length
      = (words_from n lo c).length + (words_of_length n (lo + c)).length := by
  simp [words_from]

theorem length_words_from_mono (n lo : Nat) {a b : Nat} (h : a ≤ b) :
    (words_from n lo a).length ≤ (words_from n lo b).length := by
  induction h with
  | refl => exact Nat.le_refl _
  | step _ ih => rw [length_words_from_succ]; omega

theorem cut_at_le (n minlen L : Nat) :
    cut_at n minlen L ≤ (words_from n 1 L).length := by
  unfold cut_at
  split
  · exact length_words_from_mono n 1 (by omega)
  · exact Nat.zero_le _

theorem cut_at_succ (n minlen L : Nat) (hL : 1 ≤ L) :
    (if L + 1 = minlen then (words_from n 1 L).length else cut_at n minlen L)
      = cut_at n minlen (L + 1) := by
  unfold cut_at
  by_cases h : L + 1 = minlen
  · subst h
    simp [hL]
  · by_cases h2 : 2 ≤ minlen ∧ minlen ≤ L
    · have h3 : 2 ≤ minlen ∧ minlen ≤ L + 1 := ⟨h2.1, by omega⟩
      simp [h, h2, h3]
    · have h3 : ¬ (2 ≤ minlen ∧ minlen ≤ L + 1) := by omega
      simp [h, h2, h3]

theorem outer_body_state_at (n minlen L : Nat) (hL : 1 ≤ L) (hi : L + 2 < 2 ^ 64) :
    outer_body n minlen (state_at n minlen L) = .ok (state_at n minlen (L + 1)) := by
  obtain ⟨c, rfl⟩ : ∃ c, L = c + 1 := ⟨L - 1, by omega⟩
  have hlen := length_words_from_succ n 1 c
  have hj := loop_j_eq n (words_from n 1 c).length (words_from n 1 (c + 1)).length
    (words_from n 1 (c + 1)) (by omega) (Nat.le_refl _)
  have hlayer : ((words_from n 1 (c + 1)).drop (words_from n 1 c).length).take
      ((words_from n 1 (c + 1)).length - (words_from n 1 c).length)
        = words_of_length n (1 + c) := by
    rw [hlen]
    simp [words_from]
  rw [hlayer] at hj
  have hout : words_from n 1 (c + 1) ++ extend n (words_of_length n (1 + c))
      = words_from n 1 (c + 1 + 1) := by
    simp [words_from, words_of_length, Nat.add_comm]
  rw [hout] at hj
  have hcut := cut_at_succ n minlen (c + 1) (by omega)
  simp only [outer_body, state_at, Nat.add_sub_cancel, hj, Outcome.andThen]
  rw [hcut, Nat.mod_eq_of_lt hi]

theorem outer_loop_state_at (n minlen maxlen : Nat) (hmax : maxlen < SIZE_MAX)
    (fuel L : Nat) (hL : 1 ≤ L) (hLm : L ≤ max maxlen 1) :
    outer_loop n minlen maxlen fuel (state_at n minlen L)
      = if maxlen - L ≤ fuel then .ok (state_at n minlen (max maxlen 1))
        else .no_fuel := by
  have hS : SIZE_MAX = 2 ^ 64 - 1 := rfl
  induction fuel generalizing L with
  | zero =>
    by_cases h : L + 1 ≤ maxlen
    · have h2 : ¬ maxlen - L ≤ 0 := by omega
      simp [outer_loop, state_at, h, h2]
    · have h2 : maxlen - L ≤ 0 := by omega
      have h3 : max maxlen 1 = L := by omega
      simp only [outer_loop, h2, h3, if_true]
      simp [state_at, h]
  | succ fuel ih =>
    by_cases h : L + 1 ≤ maxlen
    · have hb := outer_body_state_at n minlen L hL (by omega)
      have hi : (state_at n minlen L).i ≤ maxlen := h
      rw [outer_loop, if_pos hi, hb, Outcome.andThen, ih (L + 1) (by omega) (by omega)]
      by_cases h2 : maxlen - (L + 1) ≤ fuel
      · rw [if_pos h2, if_pos (by omega)]
      · rw [if_neg h2, if_neg (by omega)]
    · have h2 : maxlen - L ≤ fuel + 1 := by omega
      have h3 : max maxlen 1 = L := by omega
      have hi : ¬ (state_at n minlen L).i ≤ maxlen := h
      rw [outer_loop, if_neg hi, if_pos h2, h3]

theorem outer_loop_diverges (n minlen maxlen : Nat) (hmax : SIZE_MAX ≤ maxlen)
    (fuel : Nat) (s : State) (h1 : s.frst ≤ s.last) (h2 : s.last ≤ s.out.length)
    (hi : s.i < 2 ^ 64) :
    outer_loop n minlen maxlen fuel s = .no_fuel := by
  have hS : SIZE_MAX = 2 ^ 64 - 1 := rfl
  have hle : s.i ≤ maxlen := by omega
  induction fuel generalizing s with
  | zero => simp [outer_loop, hle]
  | succ fuel ih =>
    rw [outer_loop, if_pos hle, outer_body, loop_j_eq n _ _ _ h1 h2]
    simp only [Outcome.andThen]
    apply ih
    · simp only [List.length_append]; omega
    · exact Nat.le_refl _
    · exact Nat.mod_lt _ (by norm_num)
    · have : (s.i + 1) % 2 ^ 64 < 2 ^ 64 := Nat.mod_lt _ (by norm_num)
      simp only; omega

theorem init_state (n minlen : Nat) :
    ({ out := [] ++ (List.range' 0 n).map fun i => [i], cut := 0, frst := 0,
       last := n, i := 2 } : State) = state_at n minlen 1 := by
  have hc : cut_at n minlen 1 = 0 := by
    unfold cut_at
    rw [if_neg (by omega)]
  simp [state_at, hc, words_from, words_of_length, extend, List.range_eq_range']

/-- The result of `shortlex_words` for every input and every budget. -/
theorem shortlex_words_eq (fuel n minlen maxlen : Nat) :
    shortlex_words fuel n minlen maxlen
      = if maxlen < SIZE_MAX ∧ maxlen - 1 ≤ fuel then
          .ok ((words_from n 1 (max maxlen 1)).drop (cut_at n minlen maxlen))
        else .no_fuel := by
  rw [shortlex_words, for_lt_push_letter, Outcome.andThen, init_state n minlen]
  by_cases hmax : maxlen < SIZE_MAX
  · rw [outer_loop_state_at n minlen maxlen hmax fuel 1 (Nat.le_refl _) (by omega)]
    by_cases hf : maxlen - 1 ≤ fuel
    · have hc : cut_at n minlen (max maxlen 1) = cut_at n minlen maxlen := by
        unfold cut_at
        by_cases h : 2 ≤ minlen ∧ minlen ≤ maxlen
        · rw [if_pos h, if_pos ⟨h.1, by omega⟩]
        · rw [if_neg h, if_neg (by omega)]
      rw [if_pos hf, if_pos ⟨hmax, hf⟩, Outcome.andThen]
      simp only [state_at, erase_front]
      rw [if_pos (cut_at_le _ _ _), hc]
    · rw [if_neg hf, if_neg (by tauto), Outcome.andThen]
  · rw [outer_loop_diverges n minlen maxlen (by omega) fuel _ (by simp [state_at]; exact length_words_from_mono n 1 (by omega))
      (Nat.le_refl _) (by simp [state_at]), if_neg (by tauto), Outcome.andThen]

/-! ## The enumeration: membership, sizes, order -/

theorem mem_extend (n : Nat) (ws : List word_type) (w : word_type) :
    w ∈ extend n ws ↔ ∃ u ∈ ws, ∃ k < n, w = u ++ [k] := by
  simp only [extend, List.mem_flatMap, List.mem_map, List.mem_range]
  constructor
  · rintro ⟨u, hu, k, hk, rfl⟩; exact ⟨u, hu, k, hk, rfl⟩
  · rintro ⟨u, hu, k, hk, rfl⟩; exact ⟨u, hu, k, hk, rfl⟩

theorem mem_words_of_length (n L : Nat) (w : word_type) :
    w ∈ words_of_length n L ↔ w.length = L ∧ ∀ x ∈ w, x < n := by
  induction L generalizing w with
  | zero =>
    simp only [words_of_length, List.mem_singleton]
    constructor
    · rintro rfl; simp
    · rintro ⟨h, -⟩; exact List.length_eq_zero.mp h
  | succ L ih =>
    rw [words_of_length, mem_extend]
    constructor
    · rintro ⟨u, hu, k, hk, rfl⟩
      obtain ⟨hl, hx⟩ := (ih u).mp hu
      refine ⟨by simp [hl], ?_⟩
      intro x hx2
      rcases List.mem_append.mp hx2 with h | h
      · exact hx x h
      · rw [List.mem_singleton.mp h]; exact hk
    · rintro ⟨hl, hx⟩
      rcases List.eq_nil_or_concat w with rfl | ⟨u, k, rfl⟩
      · simp at hl
      · rw [List.concat_eq_append] at hl hx ⊢
        refine ⟨u, (ih u).mpr ⟨by simpa using hl, fun x hx2 => hx x (by simp [hx2])⟩,
          k, hx k (by simp), rfl⟩

theorem mem_words_from (n lo c : Nat) (w : word_type) :
    w ∈ words_from n lo c ↔ (lo ≤ w.length ∧ w.length < lo + c) ∧ ∀ x ∈ w, x < n := by
  induction c with
  | zero => simp [words_from]
  | succ c ih =>
    rw [words_from, List.mem_append, ih, mem_words_of_length]
    constructor
    · rintro (⟨⟨h1, h2⟩, h3⟩ | ⟨h1, h3⟩)
      · exact ⟨⟨h1, by omega⟩, h3⟩
      · exact ⟨⟨by omega, by omega⟩, h3⟩
    · rintro ⟨⟨h1, h2⟩, h3⟩
      by_cases h : w.length < lo + c
      · exact Or.inl ⟨⟨h1, h⟩, h3⟩
      · exact Or.inr ⟨by omega, h3⟩

theorem words_from_add (n lo a b : Nat) :
    words_from n lo (a + b) = words_from n lo a ++ words_from n (lo + a) b := by
  induction b with
  | zero => simp [words_from]
  | succ b ih =>
    rw [← Nat.add_assoc, words_from, ih, words_from, List.append_assoc, Nat.add_assoc]

theorem drop_words_from (n lo a b : Nat) :
    (words_from n lo (a + b)).drop (words_from n lo a).length
      = words_from n (lo + a) b := by
  rw [words_from_add, List.drop_left]

theorem length_extend (n : Nat) (ws : List word_type) :
    (extend n ws).length = ws.length * n := by
  induction ws with
  | nil => simp [extend]
  | cons w ws ih =>
    have h : extend n (w :: ws) = extend n [w] ++ extend n ws := extend_append n [w] ws
    rw [h, List.length_append, ih, List.length_cons, Nat.succ_mul]
    simp [extend, Nat.add_comm]

theorem length_words_of_length (n L : Nat) : (words_of_length n L).length = n ^ L := by
  induction L with
  | zero => simp [words_of_length]
  | succ L ih => rw [words_of_length, length_extend, ih, Nat.pow_succ]

theorem length_words_from (n lo c : Nat) :
    (words_from n lo c).length = ∑ l in Finset.range c, n ^ (lo + l) := by
  induction c with
  | zero => simp [words_from]
  | succ c ih =>
    rw [length_words_from_succ, ih, length_words_of_length, Finset.sum_range_succ]

/-! ## Shortlex -/

theorem lex_less_irrefl (w : word_type) : lex_less w w = false := by
  induction w with
  | nil => rfl
  | cons a w ih => simp [lex_less, ih]

theorem shortlex_less_irrefl (w : word_type) : shortlex_less w w = false := by
  simp [shortlex_less, lex_less_irrefl]

theorem lex_less_trans {u v w : word_type} (h1 : lex_less u v = true)
    (h2 : lex_less v w = true) : lex_less u w = true := by
  induction u generalizing v w with
  | nil =>
    cases v with
    | nil => simp [lex_less] at h1
    | cons b v =>
      cases w with
      | nil => simp [lex_less] at h2
      | cons c w => rfl
  | cons a u ih =>
    cases v with
    | nil => simp [lex_less] at h1
    | cons b v =>
      cases w with
      | nil => simp [lex_less] at h2
      | cons c w =>
        simp only [lex_less, Bool.or_eq_true, Bool.and_eq_true, decide_eq_true_eq,
          beq_iff_eq] at h1 h2 ⊢
        rcases h1 with h1 | ⟨rfl, h1⟩
        · rcases h2 with h2 | ⟨rfl, h2⟩
          · exact Or.inl (by omega)
          · exact Or.inl h1
        · rcases h2 with h2 | ⟨rfl, h2⟩
          · exact Or.inl h2
          · exact Or.inr ⟨rfl, ih h1 h2⟩

theorem shortlex_less_trans {u v w : word_type} (h1 : shortlex_less u v = true)
    (h2 : shortlex_less v w = true) : shortlex_less u w = true := by
  simp only [shortlex_less, Bool.or_eq_true, Bool.and_eq_true, decide_eq_true_eq,
    beq_iff_eq] at h1 h2 ⊢
  rcases h1 with h1 | ⟨e1, h1⟩
  · rcases h2 with h2 | ⟨e2, h2⟩
    · exact Or.inl (by omega)
    · exact Or.inl (by omega)
  · rcases h2 with h2 | ⟨e2, h2⟩
    · exact Or.inl (by omega)
    · exact Or.inr ⟨by omega, lex_less_trans h1 h2⟩

theorem lex_less_total (u v : word_type) (hl : u.length = v.length) (hne : u ≠ v) :
    lex_less u v = true ∨ lex_less v u = true := by
  induction u generalizing v with
  | nil =>
    cases v with
    | nil => exact absurd rfl hne
    | cons b v => simp at hl
  | cons a u ih =>
    cases v with
    | nil => simp at hl
    | cons b v =>
      simp only [lex_less, Bool.or_eq_true, Bool.and_eq_true, decide_eq_true_eq, beq_iff_eq]
      rcases Nat.lt_trichotomy a b with h | rfl | h
      · exact Or.inl (Or.inl h)
      · have hne2 : u ≠ v := fun e => hne (by rw [e])
        rcases ih v (by simpa using hl) hne2 with h | h
        · exact Or.inl (Or.inr ⟨rfl, h⟩)
        · exact Or.inr (Or.inr ⟨rfl, h⟩)
      · exact Or.inr (Or.inl h)

theorem lex_less_append_same (w : word_type) (a b : Nat) :
    lex_less (w ++ [a]) (w ++ [b]) = decide (a < b) := by
  induction w with
  | nil => simp [lex_less]
  | cons c w ih => simp [lex_less, ih]

theorem lex_less_append {u v : word_type} (hl : u.length = v.length)
    (h : lex_less u v = true) (x y : word_type) : lex_less (u ++ x) (v ++ y) = true := by
  induction u generalizing v with
  | nil =>
    cases v with
    | nil => simp [lex_less] at h
    | cons b v => simp at hl
  | cons a u ih =>
    cases v with
    | nil => simp at hl
    | cons b v =>
      simp only [List.cons_append, lex_less, Bool.or_eq_true, Bool.and_eq_true,
        decide_eq_true_eq, beq_iff_eq] at h ⊢
      rcases h with h | ⟨rfl, h⟩
      · exact Or.inl h
      · exact Or.inr ⟨rfl, ih (by simpa using hl) h⟩

theorem pairwise_words_of_length (n L : Nat) :
    (words_of_length n L).Pairwise fun u v => lex_less u v = true := by
  induction L with
  | zero => simp [words_of_length]
  | succ L ih =>
    rw [words_of_length, extend, List.pairwise_flatMap]
    constructor
    · intro w _
      rw [List.pairwise_map]
      refine (List.pairwise_lt_range n).imp ?_
      intro a b hab
      rw [lex_less_append_same]; exact decide_eq_true hab
    · refine ih.imp_of_mem ?_
      intro u v hu hv huv x hx y hy
      obtain ⟨a, -, rfl⟩ := List.mem_map.mp hx
      obtain ⟨b, -, rfl⟩ := List.mem_map.mp hy
      have hlu := ((mem_words_of_length n L u).mp hu).1
      have hlv := ((mem_words_of_length n L v).mp hv).1
      exact lex_less_append (by omega) huv _ _

theorem pairwise_words_from (n lo c : Nat) :
    (words_from n lo c).Pairwise fun u v => shortlex_less u v = true := by
  induction c with
  | zero => simp [words_from]
  | succ c ih =>
    rw [words_from, List.pairwise_append]
    refine ⟨ih, ?_, ?_⟩
    · refine (pairwise_words_of_length n (lo + c)).imp_of_mem ?_
      intro u v hu hv huv
      have hlu := ((mem_words_of_length n _ u).mp hu).1
      have hlv := ((mem_words_of_length n _ v).mp hv).1
      simp [shortlex_less, huv, hlu, hlv]
    · intro u hu v hv
      have hlu := ((mem_words_from n lo c u).mp hu).1.2
      have hlv := ((mem_words_of_length n _ v).mp hv).1
      simp [shortlex_less, hlu, hlv]

/-! ## What `shortlex_words` returns -/

/-- The call returns, with every budget of at least `maxlen - 1` passes, when
`maxlen` is not the largest `size_t`. -/
theorem shortlex_words_returns (n minlen maxlen : Nat) (hmax : maxlen < SIZE_MAX) :
    ∃ out, ∀ fuel, maxlen - 1 ≤ fuel → shortlex_words fuel n minlen maxlen = .ok out := by
  refine ⟨(words_from n 1 (max maxlen 1)).drop (cut_at n minlen maxlen), ?_⟩
  intro fuel hf
  rw [shortlex_words_eq, if_pos ⟨hmax, hf⟩]

/-- Whatever the budget, a returned list is the enumeration with its front cut. -/
theorem shortlex_words_ok {fuel n minlen maxlen : Nat} {out : List word_type}
    (h : shortlex_words fuel n minlen maxlen = .ok out) :
    out = (words_from n 1 (max maxlen 1)).drop (cut_at n minlen maxlen) := by
  rw [shortlex_words_eq] at h
  split at h
  · injection h with h; exact h.symm
  · cases h

theorem sum_Icc_pow (n c : Nat) :
    ∑ l in Finset.Icc 1 c, n ^ l = ∑ l in Finset.range c, n ^ (1 + l) := by
  induction c with
  | zero => simp
  | succ c ih =>
    rw [Finset.sum_Icc_succ_top (by omega), ih, Finset.sum_range_succ, Nat.add_comm 1 c]

/-- The returned list when `2 ≤ minlen ≤ maxlen`. -/
theorem drop_cut_at (n minlen maxlen : Nat) (h1 : 1 ≤ minlen) (h2 : minlen ≤ maxlen) :
    (words_from n 1 (max maxlen 1)).drop (cut_at n minlen maxlen)
      = words_from n minlen (maxlen + 1 - minlen) := by
  have hm : max maxlen 1 = (minlen - 1) + (maxlen + 1 - minlen) := by omega
  have hc : cut_at n minlen maxlen = (words_from n 1 (minlen - 1)).length := by
    unfold cut_at
    by_cases h : 2 ≤ minlen
    · rw [if_pos ⟨h, h2⟩]
    · have h0 : minlen - 1 = 0 := by omega
      rw [if_neg (by omega), h0]; rfl
  rw [hc, hm, drop_words_from]
  congr 1
  omega

/-! ## The claims about `shortlex_words` -/

/-- C1: `shortlex_words(2, 1, 2)` returns exactly the list
`[[0], [1], [0,0], [0,1], [1,0], [1,1]]`, in that order: every budget of at
least one pass of the outer loop gives this list. -/
theorem C1_shortlex_words_2_1_2 (fuel : Nat) :
    shortlex_words (fuel + 1) 2 1 2
      = .ok [[0], [1], [0, 0], [0, 1], [1, 0], [1, 1]] := by
  rw [shortlex_words_eq, if_pos ⟨by decide, by omega⟩]
  rfl

/-- C2: for `1 ≤ minlen ≤ maxlen` the call returns (for `maxlen` below the
largest `size_t`), and a word occurs in the returned list if and only if its
length lies between `minlen` and `maxlen` and all its letters are below
`nr_gens`. -/
theorem C2_sound_and_complete (nr_gens minlen maxlen : Nat)
    (h1 : 1 ≤ minlen) (h2 : minlen ≤ maxlen) :
    (maxlen < SIZE_MAX → ∃ out, ∀ fuel, maxlen - 1 ≤ fuel →
        shortlex_words fuel nr_gens minlen maxlen = .ok out) ∧
    ∀ fuel out, shortlex_words fuel nr_gens minlen maxlen = .ok out →
      ∀ w : word_type, w ∈ out ↔
        (minlen ≤ w.length ∧ w.length ≤ maxlen) ∧ ∀ x ∈ w, x < nr_gens := by
  refine ⟨shortlex_words_returns nr_gens minlen maxlen, ?_⟩
  intro fuel out h w
  rw [shortlex_words_ok h, drop_cut_at nr_gens minlen maxlen h1 h2, mem_words_from]
  constructor
  · rintro ⟨⟨a, b⟩, c⟩; exact ⟨⟨a, by omega⟩, c⟩
  · rintro ⟨⟨a, b⟩, c⟩; exact ⟨⟨a, by omega⟩, c⟩

/-- Witness of C2 at `shortlex_words(2, 2, 3)`: the word `[1, 0, 1]` is in the
returned list exactly as the claim says. -/
theorem C2_sound_and_complete_witness :
    shortlex_words 2 2 2 3
      = .ok [[0, 0], [0, 1], [1, 0], [1, 1], [0, 0, 0], [0, 0, 1], [0, 1, 0], [0, 1, 1],
          [1, 0, 0], [1, 0, 1], [1, 1, 0], [1, 1, 1]] ∧
    (([1, 0, 1] : word_type) ∈
        ([[0, 0], [0, 1], [1, 0], [1, 1], [0, 0, 0], [0, 0, 1], [0, 1, 0], [0, 1, 1],
          [1, 0, 0], [1, 0, 1], [1, 1, 0], [1, 1, 1]] : List word_type) ↔
      (2 ≤ ([1, 0, 1] : word_type).length ∧ ([1, 0, 1] : word_type).length ≤ 3) ∧
        ∀ x ∈ ([1, 0, 1] : word_type), x < 2) :=
  ⟨by decide, (C2_sound_and_complete 2 2 3 (by decide) (by decide)).2 2 _ (by decide) [1, 0, 1]⟩

/-- C3: for every `nr_gens`, `minlen` and `maxlen` the call returns (for
`maxlen` below the largest `size_t`), and the returned list is strictly
increasing in the shortlex order: the entry at index `i` is strictly
shortlex-smaller than the entry at index `j` whenever `i < j`; in particular no
word occurs twice. -/
theorem C3_strictly_increasing (nr_gens minlen maxlen : Nat) :
    (maxlen < SIZE_MAX → ∃ out, ∀ fuel, maxlen - 1 ≤ fuel →
        shortlex_words fuel nr_gens minlen maxlen = .ok out) ∧
    ∀ fuel out, shortlex_words fuel nr_gens minlen maxlen = .ok out →
      (∀ (i j : Nat) (u v : word_type), i < j → out[i]? = some u → out[j]? = some v →
          shortlex_less u v = true) ∧
        out.Nodup := by
  refine ⟨shortlex_words_returns nr_gens minlen maxlen, ?_⟩
  intro fuel out h
  have hp : out.Pairwise fun u v => shortlex_less u v = true := by
    rw [shortlex_words_ok h]
    exact (pairwise_words_from nr_gens 1 _).sublist (List.drop_sublist _ _)
  constructor
  · intro i j u v hij hu hv
    obtain ⟨hi, rfl⟩ := List.getElem?_eq_some_iff.mp hu
    obtain ⟨hj, rfl⟩ := List.getElem?_eq_some_iff.mp hv
    exact List.pairwise_iff_getElem.mp hp i j hi hj hij
  · refine hp.imp ?_
    intro u v huv e
    rw [e, shortlex_less_irrefl] at huv
    cases huv

/-- Witness of C3 at `shortlex_words(2, 1, 2)`: the entries at indices 1 and 2,
`[1]` and `[0, 0]`, are in strict shortlex order. -/
theorem C3_strictly_increasing_witness :
    shortlex_words 1 2 1 2 = .ok [[0], [1], [0, 0], [0, 1], [1, 0], [1, 1]] ∧
    shortlex_less [1] [0, 0] = true :=
  ⟨by decide,
    ((C3_strictly_increasing 2 1 2).2 1 [[0], [1], [0, 0], [0, 1], [1, 0], [1, 1]]
      (by decide)).1 1 2 [1] [0, 0] (by decide) (by decide) (by decide)⟩

/-- C4: for every `nr_gens`, `minlen` and `maxlen` the call returns (for
`maxlen` below the largest `size_t`), and every letter of every returned word
is strictly less than `nr_gens`. -/
theorem C4_letters_below_nr_gens (nr_gens minlen maxlen : Nat) :
    (maxlen < SIZE_MAX → ∃ out, ∀ fuel, maxlen - 1 ≤ fuel →
        shortlex_words fuel nr_gens minlen maxlen = .ok out) ∧
    ∀ fuel out, shortlex_words fuel nr_gens minlen maxlen = .ok out →
      ∀ w ∈ out, ∀ x ∈ w, x < nr_gens := by
  refine ⟨shortlex_words_returns nr_gens minlen maxlen, ?_⟩
  intro fuel out h w hw
  rw [shortlex_words_ok h] at hw
  exact ((mem_words_from nr_gens 1 _ w).mp (List.mem_of_mem_drop hw)).2

/-- Witness of C4 at `shortlex_words(3, 5, 2)`: the letter `2` of the returned
word `[1, 2]` is below `3`. -/
theorem C4_letters_below_nr_gens_witness :
    shortlex_words 1 3 5 2
      = .ok [[0], [1], [2], [0, 0], [0, 1], [0, 2], [1, 0], [1, 1], [1, 2], [2, 0],
          [2, 1], [2, 2]] ∧ 2 < 3 :=
  ⟨by decide,
    (C4_letters_below_nr_gens 3 5 2).2 1
      [[0], [1], [2], [0, 0], [0, 1], [0, 2], [1, 0], [1, 1], [1, 2], [2, 0], [2, 1], [2, 2]]
      (by decide) [1, 2] (by decide) 2 (by decide)⟩

/-- C5: for `2 ≤ minlen ≤ maxlen`, `shortlex_words(nr_gens, minlen, maxlen)` is
`shortlex_words(nr_gens, 1, maxlen)` with its first
`nr_gens^1 + ... + nr_gens^(minlen-1)` entries removed (both calls return for
`maxlen` below the largest `size_t`); the removed entries are all shorter than
`minlen` and the kept ones are not. -/
theorem C5_cut_is_drop (nr_gens minlen maxlen : Nat) (h1 : 2 ≤ minlen)
    (h2 : minlen ≤ maxlen) :
    (maxlen < SIZE_MAX → ∃ full, ∀ fuel, maxlen - 1 ≤ fuel →
        shortlex_words fuel nr_gens 1 maxlen = .ok full ∧
        shortlex_words fuel nr_gens minlen maxlen
          = .ok (full.drop (∑ l in Finset.Icc 1 (minlen - 1), nr_gens ^ l))) ∧
    ∀ fuel fuel1 out full, shortlex_words fuel nr_gens minlen maxlen = .ok out →
      shortlex_words fuel1 nr_gens 1 maxlen = .ok full →
        out = full.drop (∑ l in Finset.Icc 1 (minlen - 1), nr_gens ^ l) ∧
        (∀ w ∈ full.take (∑ l in Finset.Icc 1 (minlen - 1), nr_gens ^ l),
            w.length < minlen) ∧
        ∀ w ∈ out, minlen ≤ w.length := by
  have hsum : ∑ l in Finset.Icc 1 (minlen - 1), nr_gens ^ l
      = (words_from nr_gens 1 (minlen - 1)).length := by
    rw [sum_Icc_pow, length_words_from]
  have hfull : (words_from nr_gens 1 (max maxlen 1)).drop (cut_at nr_gens 1 maxlen)
      = words_from nr_gens 1 ((minlen - 1) + (maxlen + 1 - minlen)) := by
    rw [drop_cut_at nr_gens 1 maxlen (Nat.le_refl _) (by omega)]
    congr 1
    omega
  have hout : (words_from nr_gens 1 (max maxlen 1)).drop (cut_at nr_gens minlen maxlen)
      = words_from nr_gens (1 + (minlen - 1)) (maxlen + 1 - minlen) := by
    rw [drop_cut_at nr_gens minlen maxlen (by omega) h2]
    congr 1
    omega
  constructor
  · intro hmax
    refine ⟨words_from nr_gens 1 ((minlen - 1) + (maxlen + 1 - minlen)), ?_⟩
    intro fuel hf
    rw [shortlex_words_eq, shortlex_words_eq, if_pos ⟨hmax, hf⟩, if_pos ⟨hmax, hf⟩,
      hfull, hout, hsum, drop_words_from]
    exact ⟨rfl, rfl⟩
  · intro fuel fuel1 out full ho hf
    rw [shortlex_words_ok ho, shortlex_words_ok hf, hfull, hout, hsum, drop_words_from,
      words_from_add, List.take_left]
    refine ⟨rfl, ?_, ?_⟩
    · intro w hw
      have := ((mem_words_from _ _ _ w).mp hw).1.2
      omega
    · intro w hw
      have := ((mem_words_from _ _ _ w).mp hw).1.1
      omega

/-- Witness of C5 at the tested call `shortlex_words(2, 2, 2)`: the result
`[[0,0], [0,1], [1,0], [1,1]]` is that of `shortlex_words(2, 1, 2)` without its
first `2^1 = 2` entries. -/
theorem C5_cut_is_drop_witness :
    shortlex_words 1 2 2 2 = .ok [[0, 0], [0, 1], [1, 0], [1, 1]] ∧
    shortlex_words 1 2 1 2 = .ok [[0], [1], [0, 0], [0, 1], [1, 0], [1, 1]] ∧
    ([[0, 0], [0, 1], [1, 0], [1, 1]] : List word_type)
      = ([[0], [1], [0, 0], [0, 1], [1, 0], [1, 1]] : List word_type).drop
          (∑ l in Finset.Icc 1 (2 - 1), 2 ^ l) :=
  ⟨by decide, by decide,
    ((C5_cut_is_drop 2 2 2 (by decide) (by decide)).2 1 1 [[0, 0], [0, 1], [1, 0], [1, 1]]
      [[0], [1], [0, 0], [0, 1], [1, 0], [1, 1]] (by decide) (by decide)).1⟩

/-- C6: for every `nr_gens`, `minlen` and `maxlen` (also `minlen = 0`) the call
returns (for `maxlen` below the largest `size_t`) and no returned word is the
empty word; and `shortlex_words(nr_gens, 0, maxlen)` and
`shortlex_words(nr_gens, 1, maxlen)` have the same outcome with every budget. -/
theorem C6_no_empty_word (nr_gens minlen maxlen : Nat) :
    (maxlen < SIZE_MAX → ∃ out, ∀ fuel, maxlen - 1 ≤ fuel →
        shortlex_words fuel nr_gens minlen maxlen = .ok out) ∧
    (∀ fuel out, shortlex_words fuel nr_gens minlen maxlen = .ok out → [] ∉ out) ∧
    ∀ fuel, shortlex_words fuel nr_gens 0 maxlen = shortlex_words fuel nr_gens 1 maxlen := by
  refine ⟨shortlex_words_returns nr_gens minlen maxlen, ?_, ?_⟩
  · intro fuel out h hmem
    rw [shortlex_words_ok h] at hmem
    have := ((mem_words_from nr_gens 1 _ []).mp (List.mem_of_mem_drop hmem)).1.1
    simp at this
  · intro fuel
    have h0 : cut_at nr_gens 0 maxlen = 0 := by
      unfold cut_at; rw [if_neg (by omega)]
    have h1 : cut_at nr_gens 1 maxlen = 0 := by
      unfold cut_at; rw [if_neg (by omega)]
    rw [shortlex_words_eq, shortlex_words_eq, h0, h1]

/-- Witness of C6 at `shortlex_words(2, 0, 2)`: the empty word is not in the
returned list, which is that of `shortlex_words(2, 1, 2)`. -/
theorem C6_no_empty_word_witness :
    shortlex_words 1 2 0 2 = .ok [[0], [1], [0, 0], [0, 1], [1, 0], [1, 1]] ∧
    ([] : word_type) ∉ ([[0], [1], [0, 0], [0, 1], [1, 0], [1, 1]] : List word_type) ∧
    shortlex_words 1 2 0 2 = shortlex_words 1 2 1 2 :=
  ⟨by decide,
    (C6_no_empty_word 2 0 2).2.1 1 [[0], [1], [0, 0], [0, 1], [1, 0], [1, 1]] (by decide),
    (C6_no_empty_word 2 0 2).2.2 1⟩

/-! ## The presentation facade -/

theorem add_rule_isOk (S : FpSemigroup) (u v : word_type) :
    (S.add_rule u v).isOk
      = (!S.started && (valid_word S.alphabet_size u && valid_word S.alphabet_size v)) := by
  unfold FpSemigroup.add_rule
  cases hs : S.started <;> cases hu : valid_word S.alphabet_size u <;>
    cases hv : valid_word S.alphabet_size v <;> simp [Except.isOk, Except.toBool]

theorem call_add_rule_eq (S : FpSemigroup) (r : relation_type) :
    S.call_add_rule r
      = if (S.add_rule r.1 r.2).isOk then { S with rules := S.rules ++ [r] } else S := by
  unfold FpSemigroup.call_add_rule FpSemigroup.add_rule
  cases hs : S.started <;> cases hu : valid_word S.alphabet_size r.1 <;>
    cases hv : valid_word S.alphabet_size r.2 <;> simp [Except.isOk, Except.toBool]

theorem call_add_rule_isOk (S : FpSemigroup) (r : relation_type) (u v : word_type) :
    ((S.call_add_rule r).add_rule u v).isOk = (S.add_rule u v).isOk := by
  rw [call_add_rule_eq]
  split
  · rw [add_rule_isOk, add_rule_isOk]
  · rfl

theorem foldl_call_add_rule (S : FpSemigroup) (rs : List relation_type) :
    (rs.foldl FpSemigroup.call_add_rule S).rules
      = S.rules ++ rs.filter fun r => (S.add_rule r.1 r.2).isOk := by
  induction rs generalizing S with
  | nil => simp
  | cons r rs ih =>
    rw [List.foldl_cons, ih]
    have hf : (rs.filter fun q => ((S.call_add_rule r).add_rule q.1 q.2).isOk)
        = rs.filter fun q => (S.add_rule q.1 q.2).isOk := by
      congr 1
      funext q
      exact call_add_rule_isOk S r q.1 q.2
    rw [hf, call_add_rule_eq, List.filter_cons]
    split <;> simp

theorem char_to_letter_getD (cs : List Char) (c : Char) (i : Nat)
    (h : char_to_letter cs c = some i) : cs.getD i 'a' = c := by
  unfold char_to_letter at h
  split at h
  · rename_i hlt
    injection h with h
    subst h
    rw [List.getD_eq_getElem cs 'a' hlt]
    exact List.getElem_indexOf hlt
  · cases h

theorem word_to_string_of_string_to_word (cs s : List Char) (w : word_type)
    (h : string_to_word cs s = some w) : word_to_string cs w = s := by
  induction s generalizing w with
  | nil =>
    simp only [string_to_word, Option.some.injEq] at h
    subst h
    rfl
  | cons c s ih =>
    rw [string_to_word] at h
    split at h
    · rename_i i t hi ht
      injection h with h
      subst h
      simp only [word_to_string, List.map_cons]
      rw [char_to_letter_getD cs c i hi]
      congr 1
      exact ih t ht
    · cases h

/-! ## Sizes of quotients -/

theorem congruent_nil {u v : word_type} (h : congruent [] u v) : u = v := by
  induction h with
  | rel u v hm => cases hm
  | refl u => rfl
  | symm u v _ ih => exact ih.symm
  | trans u v w _ _ ih1 ih2 => exact ih1.trans ih2
  | mul x y u v _ ih => rw [ih]

theorem valid_word_replicate (n k : Nat) (hn : 0 < n) :
    valid_word n (List.replicate k 0) = true := by
  simp [valid_word, hn]

theorem infinite_quotient_of_no_rules (n : Nat) (hn : 0 < n) (st : Bool) :
    Infinite (Quotient (FpSemigroup.setoid { alphabet_size := n, rules := [], started := st })) := by
  let S : FpSemigroup := { alphabet_size := n, rules := [], started := st }
  let f : Nat → Quotient S.setoid := fun k =>
    Quotient.mk S.setoid ⟨List.replicate (k + 1) 0, by simp, valid_word_replicate n _ hn⟩
  refine Infinite.of_injective f ?_
  intro a b hab
  have h1 : congruent [] (List.replicate (a + 1) 0) (List.replicate (b + 1) 0) :=
    Quotient.exact hab
  have h2 := congrArg List.length (congruent_nil h1)
  simpa using h2

theorem weight_append (u v : word_type) : weight (u ++ v) = weight u + weight v := by
  induction u with
  | nil => simp [weight]
  | cons x u ih => simp [weight, ih, Nat.add_assoc]

theorem reduce_exponent_add {a b : Nat} (h : reduce_exponent a = reduce_exponent b)
    (x y : Nat) : reduce_exponent (x + a + y) = reduce_exponent (x + b + y) := by
  unfold reduce_exponent at *
  split at h <;> split at h <;> split <;> split <;> omega

theorem reduce_exponent_of_congruent {u v : word_type}
    (h : congruent seed_presentation.rules u v) :
    reduce_exponent (weight u) = reduce_exponent (weight v) := by
  induction h with
  | rel u v hm =>
    simp only [seed_presentation, List.mem_cons, Prod.mk.injEq, List.mem_singleton,
      List.not_mem_nil, or_false] at hm
    rcases hm with ⟨rfl, rfl⟩ | ⟨rfl, rfl⟩ <;> decide
  | refl u => rfl
  | symm u v _ ih => exact ih.symm
  | trans u v w _ _ ih1 ih2 => exact ih1.trans ih2
  | mul x y u v _ ih =>
    simp only [weight_append]
    exact reduce_exponent_add ih _ _

theorem congruent_append_left {R : List relation_type} (x : word_type) {u v : word_type}
    (h : congruent R u v) : congruent R (x ++ u) (x ++ v) := by
  simpa using congruent.mul x [] u v h

theorem congruent_append_right {R : List relation_type} (y : word_type) {u v : word_type}
    (h : congruent R u v) : congruent R (u ++ y) (v ++ y) := by
  simpa using congruent.mul [] y u v h

theorem congruent_power_of_b (w : word_type) (hw : valid_word 2 w = true) :
    congruent seed_presentation.rules w (List.replicate (weight w) 1) := by
  induction w with
  | nil => exact congruent.refl _
  | cons x w ih =>
    simp only [valid_word, List.all_cons, Bool.and_eq_true, decide_eq_true_eq] at hw
    have ih2 := ih (by simpa [valid_word] using hw.2)
    have hx : x = 0 ∨ x = 1 := by omega
    rcases hx with rfl | rfl
    · have h1 : congruent seed_presentation.rules [0] [1, 1] :=
        congruent.rel _ _ (by simp [seed_presentation])
      have h2 := congruent_append_right w h1
      have h3 := congruent_append_left [1, 1] ih2
      have h4 := congruent.trans _ _ _ h2 h3
      have e : weight (0 :: w) = weight w + 2 := by simp [weight, Nat.add_comm]
      rw [e, List.replicate_succ, List.replicate_succ]
      simpa using h4
    · have h3 := congruent_append_left [1] ih2
      have e : weight (1 :: w) = weight w + 1 := by simp [weight, Nat.add_comm]
      rw [e, List.replicate_succ]
      simpa using h3

theorem congruent_b6_b2 :
    congruent seed_presentation.rules (List.replicate 6 1) (List.replicate 2 1) := by
  have hab : congruent seed_presentation.rules [0] [1, 1] :=
    congruent.rel _ _ (by simp [seed_presentation])
  have haaa : congruent seed_presentation.rules [0, 0, 0] [0] :=
    congruent.rel _ _ (by simp [seed_presentation])
  have h1 : congruent seed_presentation.rules [0, 0, 0] [1, 1, 1, 1, 1, 1] := by
    have s1 := congruent_append_right [0, 0] hab
    have s2 := congruent_append_left [1, 1] (congruent_append_right [0] hab)
    have s3 := congruent_append_left [1, 1, 1, 1] hab
    exact congruent.trans _ _ _ s1 (congruent.trans _ _ _ s2 s3)
  exact congruent.trans _ _ _ (congruent.symm _ _ h1) (congruent.trans _ _ _ haaa hab)

theorem congruent_reduce_exponent (m : Nat) :
    congruent seed_presentation.rules (List.replicate m 1)
      (List.replicate (reduce_exponent m) 1) := by
  induction m using Nat.strong_induction_on with
  | _ m ih =>
    by_cases h : m < 6
    · have e : reduce_exponent m = m := by simp [reduce_exponent, h]
      rw [e]; exact congruent.refl _
    · have e : reduce_exponent m = reduce_exponent (m - 4) := by
        unfold reduce_exponent; split <;> split <;> omega
      have hm : m = 6 + (m - 6) := by omega
      have hm2 : m - 4 = 2 + (m - 6) := by omega
      have h1 := congruent_append_right (List.replicate (m - 6) 1) congruent_b6_b2
      rw [← List.replicate_add, ← List.replicate_add, ← hm, ← hm2] at h1
      rw [e]
      exact congruent.trans _ _ _ h1 (ih (m - 4) (by omega))

theorem weight_pos (w : word_type) (h : w ≠ []) : 0 < weight w := by
  cases w with
  | nil => exact absurd rfl h
  | cons x w => simp only [weight]; split <;> omega

theorem reduce_exponent_range (m : Nat) (h : 0 < m) :
    1 ≤ reduce_exponent m ∧ reduce_exponent m ≤ 5 := by
  unfold reduce_exponent; split <;> omega

theorem weight_replicate_b (m : Nat) : weight (List.replicate m 1) = m := by
  induction m with
  | zero => rfl
  | succ m ih => simp [List.replicate_succ, weight, ih, Nat.add_comm]

theorem congruent_of_reduce_exponent (u v : word_type) (hu : valid_word 2 u = true)
    (hv : valid_word 2 v = true)
    (h : reduce_exponent (weight u) = reduce_exponent (weight v)) :
    congruent seed_presentation.rules u v := by
  have h1 := congruent.trans _ _ _ (congruent_power_of_b u hu)
    (congruent_reduce_exponent (weight u))
  have h2 := congruent.trans _ _ _ (congruent_power_of_b v hv)
    (congruent_reduce_exponent (weight v))
  rw [h] at h1
  exact congruent.trans _ _ _ h1 (congruent.symm _ _ h2)

theorem card_seed_quotient : ENat.card (Quotient seed_presentation.setoid) = 5 := by
  obtain ⟨f, hf⟩ : ∃ f : Quotient seed_presentation.setoid → Fin 5, Function.Bijective f := by
    let g : seed_presentation.element → Fin 5 := fun e =>
      ⟨reduce_exponent (weight e.1) - 1, by
        have := reduce_exponent_range (weight e.1) (weight_pos e.1 e.2.1)
        omega⟩
    have hg : ∀ a b : seed_presentation.element, seed_presentation.setoid.r a b → g a = g b := by
      intro a b hab
      have := reduce_exponent_of_congruent hab
      simp only [g, this]
    refine ⟨Quotient.lift g hg, ?_, ?_⟩
    · intro q1 q2
      refine Quotient.inductionOn₂ q1 q2 ?_
      intro a b hab
      simp only [Quotient.lift_mk, g, Fin.mk.injEq] at hab
      have ha := reduce_exponent_range (weight a.1) (weight_pos a.1 a.2.1)
      have hb := reduce_exponent_range (weight b.1) (weight_pos b.1 b.2.1)
      exact Quotient.sound
        (congruent_of_reduce_exponent a.1 b.1 a.2.2 b.2.2 (by omega))
    · intro k
      refine ⟨Quotient.mk _ ⟨List.replicate (k.1 + 1) 1, by simp,
        by simp [valid_word, seed_presentation]⟩, ?_⟩
      apply Fin.ext
      simp only [Quotient.lift_mk, g, weight_replicate_b]
      have hk := k.2
      have : reduce_exponent (k.1 + 1) = k.1 + 1 := by
        unfold reduce_exponent; rw [if_pos (by omega)]
      omega
  rw [ENat.card_congr (Equiv.ofBijective f hf)]
  simp

/-! ## Rewriting and the congruence -/

theorem valid_word_append (n : Nat) (u v : word_type) :
    valid_word n (u ++ v) = (valid_word n u && valid_word n v) := by
  simp [valid_word, List.all_append]

theorem valid_of_congruent {n : Nat} {R : List relation_type} (hR : valid_rules n R)
    {u v : word_type} (h : congruent R u v) : valid_word n u = valid_word n v := by
  induction h with
  | rel u v hm =>
    have := hR (u, v) hm
    rw [this.1, this.2]
  | refl u => rfl
  | symm u v _ ih => exact ih.symm
  | trans u v w _ _ ih1 ih2 => exact ih1.trans ih2
  | mul x y u v _ ih => simp only [valid_word_append, ih]

theorem congruent_of_step {R : List relation_type} {u v : word_type}
    (h : rewrite_step R u v) : congruent R u v := by
  cases h with
  | replace x y l r hm => exact congruent.mul x y l r (congruent.rel l r hm)

theorem congruent_of_steps {R : List relation_type} {u v : word_type}
    (h : Relation.ReflTransGen (rewrite_step R) u v) : congruent R u v := by
  induction h with
  | refl => exact congruent.refl _
  | tail _ hs ih => exact congruent.trans _ _ _ ih (congruent_of_step hs)

theorem step_in_context {R : List relation_type} (x y : word_type) {u v : word_type}
    (h : rewrite_step R u v) : rewrite_step R (x ++ u ++ y) (x ++ v ++ y) := by
  cases h with
  | replace p s l r hm =>
    have := rewrite_step.replace (x ++ p) (s ++ y) l r hm
    simpa [List.append_assoc] using this

theorem steps_in_context {R : List relation_type} (x y : word_type) {u v : word_type}
    (h : Relation.ReflTransGen (rewrite_step R) u v) :
    Relation.ReflTransGen (rewrite_step R) (x ++ u ++ y) (x ++ v ++ y) := by
  induction h with
  | refl => exact Relation.ReflTransGen.refl
  | tail _ hs ih => exact Relation.ReflTransGen.tail ih (step_in_context x y hs)

theorem step_of_rule {R : List relation_type} {l r : word_type} (h : (l, r) ∈ R) :
    rewrite_step R l r := by
  simpa using rewrite_step.replace [] [] l r h

/-- Congruent words over the alphabet have a common normal form in a confluent
system. -/
theorem common_normal_form {n : Nat} {R : List relation_type} (hR : valid_rules n R)
    (hc : confluent n R) {u v : word_type} (h : congruent R u v)
    (hu : valid_word n u = true) : ∃ x, rewrites_to R u x ∧ rewrites_to R v x := by
  induction h with
  | rel u v hm =>
    obtain ⟨x, hx, -⟩ := hc v (hR (u, v) hm).2
    exact ⟨x, ⟨Relation.ReflTransGen.head (step_of_rule hm) hx.1, hx.2⟩, hx⟩
  | refl u =>
    obtain ⟨x, hx, -⟩ := hc u hu
    exact ⟨x, hx, hx⟩
  | symm u v huv ih =>
    obtain ⟨x, h1, h2⟩ := ih (by rw [valid_of_congruent hR huv]; exact hu)
    exact ⟨x, h2, h1⟩
  | trans u v w huv _ ih1 ih2 =>
    have hv : valid_word n v = true := by rw [← valid_of_congruent hR huv]; exact hu
    obtain ⟨x, h1, h2⟩ := ih1 hu
    obtain ⟨y, h3, h4⟩ := ih2 hv
    obtain ⟨z, -, hz⟩ := hc v hv
    have e1 := hz x h2
    have e2 := hz y h3
    rw [e2] at h4
    rw [e1] at h1
    exact ⟨z, h1, h4⟩
  | mul x y u v _ ih =>
    simp only [valid_word_append, Bool.and_eq_true] at hu
    obtain ⟨m, h1, h2⟩ := ih hu.1.2
    have hm : valid_word n (x ++ m ++ y) = true := by
      have := valid_of_congruent hR (congruent_of_steps h1.1)
      simp only [valid_word_append, Bool.and_eq_true]
      exact ⟨⟨hu.1.1, by rw [← this]; exact hu.1.2⟩, hu.2⟩
    obtain ⟨z, hz, -⟩ := hc _ hm
    exact ⟨z, ⟨(steps_in_context x y h1.1).trans hz.1, hz.2⟩,
      ⟨(steps_in_context x y h2.1).trans hz.1, hz.2⟩⟩

/-! ## The rules `aa → a`, `ab → a`, `ba → a` form a confluent system -/

theorem scenario_four_step {w w' : word_type} (h : rewrite_step scenario_four.rules w w') :
    0 ∈ w ∧ 0 ∈ w' ∧ w.length = w'.length + 1 := by
  cases h with
  | replace x y l r hm =>
    simp only [scenario_four, List.mem_cons, Prod.mk.injEq, List.mem_singleton,
      List.not_mem_nil, or_false] at hm
    rcases hm with ⟨rfl, rfl⟩ | ⟨rfl, rfl⟩ | ⟨rfl, rfl⟩ <;>
      refine ⟨by simp, by simp, ?_⟩ <;>
      simp only [List.length_append, List.length_cons, List.length_nil] <;> omega

theorem scenario_four_steps {w x : word_type}
    (h : Relation.ReflTransGen (rewrite_step scenario_four.rules) w x) (h0 : 0 ∈ w) :
    0 ∈ x := by
  induction h with
  | refl => exact h0
  | tail _ hs _ => exact (scenario_four_step hs).2.1

theorem scenario_four_reducible (w : word_type) (hv : valid_word 2 w = true)
    (h0 : 0 ∈ w) (hne : w ≠ [0]) : ∃ w', rewrite_step scenario_four.rules w w' := by
  obtain ⟨p, s, rfl⟩ := List.append_of_mem h0
  cases s with
  | cons c s =>
    have hc : c < 2 := by
      simp only [valid_word, List.all_append, List.all_cons, Bool.and_eq_true,
        decide_eq_true_eq] at hv
      exact hv.2.2.1
    have hm : ([0, c], [0]) ∈ scenario_four.rules := by
      have : c = 0 ∨ c = 1 := by omega
      rcases this with rfl | rfl <;> simp [scenario_four]
    refine ⟨p ++ [0] ++ s, ?_⟩
    have := rewrite_step.replace p s [0, c] [0] hm
    simpa using this
  | nil =>
    rcases List.eq_nil_or_concat p with rfl | ⟨q, c, rfl⟩
    · exact absurd rfl hne
    · rw [List.concat_eq_append] at hv ⊢
      have hc : c < 2 := by
        simp only [valid_word, List.all_append, List.all_cons, Bool.and_eq_true,
          decide_eq_true_eq] at hv
        exact hv.1.2.1
      have hm : ([c, 0], [0]) ∈ scenario_four.rules := by
        have : c = 0 ∨ c = 1 := by omega
        rcases this with rfl | rfl <;> simp [scenario_four]
      refine ⟨q ++ [0] ++ [], ?_⟩
      have := rewrite_step.replace q [] [c, 0] [0] hm
      simpa using this

theorem scenario_four_valid_rules : valid_rules 2 scenario_four.rules := by
  intro r hr
  simp only [scenario_four, List.mem_cons, List.mem_singleton, List.not_mem_nil,
    or_false] at hr
  rcases hr with rfl | rfl | rfl <;> exact ⟨rfl, rfl⟩

theorem scenario_four_steps_to_a (k : Nat) (w : word_type) (hk : w.length = k)
    (hv : valid_word 2 w = true) (h0 : 0 ∈ w) :
    Relation.ReflTransGen (rewrite_step scenario_four.rules) w [0] := by
  induction k generalizing w with
  | zero =>
    have : w = [] := List.length_eq_zero.mp hk
    subst this
    simp at h0
  | succ k ih =>
    by_cases hne : w = [0]
    · rw [hne]
    · obtain ⟨w', hs⟩ := scenario_four_reducible w hv h0 hne
      have hl := scenario_four_step hs
      have hv' : valid_word 2 w' = true := by
        rw [← valid_of_congruent scenario_four_valid_rules (congruent_of_step hs)]
        exact hv
      exact Relation.ReflTransGen.head hs (ih w' (by omega) hv' hl.2.1)

theorem scenario_four_confluent : confluent 2 scenario_four.rules := by
  intro w hv
  by_cases h0 : 0 ∈ w
  · refine ⟨[0], ⟨scenario_four_steps_to_a _ w rfl hv h0, ?_⟩, ?_⟩
    · intro w' hs
      obtain ⟨-, h2, h3⟩ := scenario_four_step hs
      have hnil : w' = [] := List.length_eq_zero.mp (by simpa using h3.symm)
      rw [hnil] at h2
      simp at h2
    · intro y hy
      by_contra hne
      have hvy : valid_word 2 y = true := by
        rw [← valid_of_congruent scenario_four_valid_rules (congruent_of_steps hy.1)]
        exact hv
      obtain ⟨y', hs⟩ := scenario_four_reducible y hvy (scenario_four_steps hy.1 h0) hne
      exact hy.2 y' hs
  · refine ⟨w, ⟨Relation.ReflTransGen.refl, ?_⟩, ?_⟩
    · intro w' hs
      exact h0 (scenario_four_step hs).1
    · intro y hy
      rcases Relation.ReflTransGen.cases_head hy.1 with e | ⟨c, hs, -⟩
      · exact e.symm
      · exact absurd (scenario_four_step hs).1 h0

/-! ## Coset tables and the congruence -/

theorem lookup_lt (T : ToddCoxeter)
    (hcl : ∀ row ∈ T.table, ∀ d ∈ row, d < T.table.length) {c g d : Nat}
    (h : T.lookup c g = some d) : d < T.table.length := by
  simp only [ToddCoxeter.lookup, Option.bind_eq_some] at h
  obtain ⟨row, hrow, hd⟩ := h
  exact hcl row (List.getElem?_mem hrow) d (List.getElem?_mem hd)

theorem trace_append (T : ToddCoxeter) (c : Nat) (u v : word_type) :
    T.trace c (u ++ v) = (T.trace c u).bind fun d => T.trace d v := by
  induction u generalizing c with
  | nil => simp [ToddCoxeter.trace]
  | cons g u ih =>
    simp only [List.cons_append, ToddCoxeter.trace]
    cases T.lookup c g with
    | none => rfl
    | some d => simp [ih]

theorem trace_lt (T : ToddCoxeter)
    (hcl : ∀ row ∈ T.table, ∀ d ∈ row, d < T.table.length) (w : word_type) {c d : Nat}
    (hc : c < T.table.length) (h : T.trace c w = some d) : d < T.table.length := by
  induction w generalizing c with
  | nil =>
    simp only [ToddCoxeter.trace, Option.some.injEq] at h
    omega
  | cons g w ih =>
    simp only [ToddCoxeter.trace, Option.bind_eq_some] at h
    obtain ⟨e, he, hd⟩ := h
    exact ih (lookup_lt T hcl he) hd

theorem trace_total (T : ToddCoxeter) (n : Nat)
    (hcl : ∀ row ∈ T.table, ∀ d ∈ row, d < T.table.length)
    (hco : ∀ c < T.table.length, ∀ g < n, (T.lookup c g).isSome = true)
    (w : word_type) (hw : valid_word n w = true) {c : Nat} (hc : c < T.table.length) :
    ∃ d, T.trace c w = some d := by
  induction w generalizing c with
  | nil => exact ⟨c, rfl⟩
  | cons g w ih =>
    simp only [valid_word, List.all_cons, Bool.and_eq_true, decide_eq_true_eq] at hw
    obtain ⟨e, he⟩ := Option.isSome_iff_exists.mp (hco c hc g hw.1)
    obtain ⟨d, hd⟩ := ih (by simpa [valid_word] using hw.2) (lookup_lt T hcl he)
    exact ⟨d, by simp [ToddCoxeter.trace, he, hd]⟩

theorem trace_of_congruent (T : ToddCoxeter) (rels : List relation_type)
    (hcl : ∀ row ∈ T.table, ∀ d ∈ row, d < T.table.length)
    (hrel : ∀ r ∈ rels, ∀ c < T.table.length, T.trace c r.1 = T.trace c r.2)
    {u v : word_type} (h : congruent rels u v) :
    ∀ c < T.table.length, T.trace c u = T.trace c v := by
  induction h with
  | rel u v hm => exact hrel (u, v) hm
  | refl u => exact fun _ _ => rfl
  | symm u v _ ih => exact fun c hc => (ih c hc).symm
  | trans u v w _ _ ih1 ih2 => exact fun c hc => (ih1 c hc).trans (ih2 c hc)
  | mul x y u v _ ih =>
    intro c hc
    rw [trace_append, trace_append, trace_append, trace_append]
    cases hx : T.trace c x with
    | none => rfl
    | some d =>
      simp only [Option.some_bind]
      rw [ih d (trace_lt T hcl x hc hx)]

theorem congruent_class_to_word (T : ToddCoxeter) (S : FpSemigroup) (hT : T.finished S)
    (w : word_type) {c : Nat} (h : T.trace 0 w = some c) :
    congruent S.rules w (T.class_to_word c) := by
  obtain ⟨h0, -, hcl, -, hnil, -, hstep⟩ := hT
  induction w using List.reverseRecOn generalizing c with
  | nil =>
    simp only [ToddCoxeter.trace, Option.some.injEq] at h
    rw [← h, hnil]
    exact congruent.refl _
  | append_singleton w g ih =>
    rw [trace_append] at h
    simp only [Option.bind_eq_some] at h
    obtain ⟨e, he, hg⟩ := h
    simp only [ToddCoxeter.trace, Option.bind_eq_some, Option.some.injEq] at hg
    obtain ⟨d, hd, rfl⟩ := hg
    have h1 := congruent_append_right [g] (ih he)
    exact congruent.trans _ _ _ h1 (hstep e (trace_lt T hcl w h0 he) g d hd)

/-- For a finished Todd-Coxeter engine two words over the alphabet are
congruent exactly when their coset lookups agree. -/
theorem congruent_iff_word_to_class (T : ToddCoxeter) (S : FpSemigroup)
    (hT : T.finished S) (u v : word_type) (hu : valid_word S.alphabet_size u = true) :
    congruent S.rules u v ↔ T.word_to_class u = T.word_to_class v := by
  have hT' := hT
  obtain ⟨h0, hco, hcl, hrel, -, -, -⟩ := hT
  constructor
  · intro h
    exact trace_of_congruent T S.rules hcl hrel h 0 h0
  · intro h
    obtain ⟨c, hc⟩ := trace_total T S.alphabet_size hcl hco u hu h0
    have hv : T.trace 0 v = some c := by
      rw [← hc]; exact h.symm
    exact congruent.trans _ _ _ (congruent_class_to_word T S hT' u hc)
      (congruent.symm _ _ (congruent_class_to_word T S hT' v hv))

/-! ## The least word of a class -/

theorem lex_less_connected (u v : word_type) (hne : u ≠ v) :
    lex_less u v = true ∨ lex_less v u = true := by
  induction u generalizing v with
  | nil =>
    cases v with
    | nil => exact absurd rfl hne
    | cons b v => exact Or.inl rfl
  | cons a u ih =>
    cases v with
    | nil => exact Or.inr rfl
    | cons b v =>
      simp only [lex_less, Bool.or_eq_true, Bool.and_eq_true, decide_eq_true_eq, beq_iff_eq]
      rcases Nat.lt_trichotomy a b with h | rfl | h
      · exact Or.inl (Or.inl h)
      · have hne2 : u ≠ v := fun e => hne (by rw [e])
        rcases ih v hne2 with h | h
        · exact Or.inl (Or.inr ⟨rfl, h⟩)
        · exact Or.inr (Or.inr ⟨rfl, h⟩)
      · exact Or.inr (Or.inl h)

theorem exists_lex_least (P : word_type → Prop) (L : List word_type) (x0 : word_type)
    (hx0 : x0 ∈ L) (hP : P x0) :
    ∃ x ∈ L, P x ∧ ∀ y ∈ L, P y → lex_less y x = false := by
  induction L generalizing x0 with
  | nil => cases hx0
  | cons a L ih =>
    by_cases hex : ∃ z ∈ L, P z
    · obtain ⟨z, hz, hPz⟩ := hex
      obtain ⟨m, hm, hPm, hleast⟩ := ih z hz hPz
      by_cases ha : P a ∧ lex_less a m = true
      · refine ⟨a, List.mem_cons_self _ _, ha.1, ?_⟩
        intro y hy hPy
        rcases List.mem_cons.mp hy with rfl | hyL
        · exact lex_less_irrefl _
        · cases hya : lex_less y a with
          | false => rfl
          | true =>
            have := lex_less_trans hya ha.2
            rw [hleast y hyL hPy] at this
            cases this
      · refine ⟨m, List.mem_cons_of_mem _ hm, hPm, ?_⟩
        intro y hy hPy
        rcases List.mem_cons.mp hy with rfl | hyL
        · cases hym : lex_less y m with
          | false => rfl
          | true => exact absurd ⟨hPy, hym⟩ ha
        · exact hleast y hyL hPy
    · have hxa : x0 = a := by
        rcases List.mem_cons.mp hx0 with h | h
        · exact h
        · exact absurd ⟨x0, h, hP⟩ hex
      subst hxa
      refine ⟨x0, List.mem_cons_self _ _, hP, ?_⟩
      intro y hy hPy
      rcases List.mem_cons.mp hy with rfl | hyL
      · exact lex_less_irrefl _
      · exact absurd ⟨y, hyL, hPy⟩ hex

theorem valid_word_iff (n : Nat) (w : word_type) :
    valid_word n w = true ↔ ∀ x ∈ w, x < n := by
  simp [valid_word]

theorem mem_words_up_to_bound (n b : Nat) (w : word_type) :
    w ∈ words_from n 0 (b + 1) ↔ valid_word n w = true ∧ w.length ≤ b := by
  rw [mem_words_from, valid_word_iff]
  constructor
  · rintro ⟨⟨-, h⟩, hv⟩; exact ⟨hv, by omega⟩
  · rintro ⟨hv, h⟩; exact ⟨⟨Nat.zero_le _, by omega⟩, hv⟩

theorem exists_least_in_class (T : ToddCoxeter) (S : FpSemigroup) (hT : T.finished S)
    (w : word_type) (hw : valid_word S.alphabet_size w = true) :
    ∃ x, T.least_in_class S.alphabet_size w x := by
  obtain ⟨h0, hco, hcl, -, -, hwords, -⟩ := hT
  obtain ⟨c, hc⟩ := trace_total T S.alphabet_size hcl hco w hw h0
  obtain ⟨hv, hlen, htr⟩ := hwords c (trace_lt T hcl w h0 hc)
  have hcls : T.word_to_class (T.class_to_word c) = T.word_to_class w := by
    rw [htr]; exact hc.symm
  obtain ⟨x, hx, hPx, hleast⟩ := exists_lex_least
    (fun y => T.word_to_class y = T.word_to_class w)
    (words_from S.alphabet_size 0 (T.bound + 1)) (T.class_to_word c)
    ((mem_words_up_to_bound _ _ _).mpr ⟨hv, hlen⟩) hcls
  obtain ⟨hxv, hxl⟩ := (mem_words_up_to_bound _ _ _).mp hx
  refine ⟨x, hxv, hxl, hPx, ?_⟩
  intro y hyv hyl hy
  exact hleast y ((mem_words_up_to_bound _ _ _).mpr ⟨hyv, hyl⟩) hy

theorem least_in_class_unique (T : ToddCoxeter) (n : Nat) {u v x y : word_type}
    (h : T.word_to_class u = T.word_to_class v) (hx : T.least_in_class n u x)
    (hy : T.least_in_class n v y) : x = y := by
  by_contra hne
  obtain ⟨hxv, hxl, hxc, hxm⟩ := hx
  obtain ⟨hyv, hyl, hyc, hym⟩ := hy
  rcases lex_less_connected x y hne with hlt | hlt
  · rw [hym x hxv hxl (by rw [hxc, h])] at hlt
    cases hlt
  · rw [hxm y hyv hyl (by rw [hyc, h])] at hlt
    cases hlt

/-! ## Rewriting systems equivalent to a presentation -/

theorem congruent_of_generators {A B : List relation_type}
    (h : ∀ r ∈ A, congruent B r.1 r.2) {u v : word_type} (huv : congruent A u v) :
    congruent B u v := by
  induction huv with
  | rel u v hm => exact h (u, v) hm
  | refl u => exact congruent.refl u
  | symm u v _ ih => exact congruent.symm _ _ ih
  | trans u v w _ _ ih1 ih2 => exact congruent.trans _ _ _ ih1 ih2
  | mul x y u v _ ih => exact congruent.mul x y u v ih

/-! ## A finished coset table for `aaa = a`, `a = bb` -/

theorem seed_todd_coxeter_finished : seed_todd_coxeter.finished seed_presentation := by
  refine ⟨by decide, by decide, by decide, by decide, rfl, by decide, ?_⟩
  intro c hc g d h
  have hc6 : c < 6 := hc
  interval_cases c <;> rcases g with _ | _ | g <;>
    simp [ToddCoxeter.lookup, seed_todd_coxeter] at h <;> subst h <;>
    exact congruent_of_reduce_exponent _ _ (by decide) (by decide) (by decide)

/-- With the finished table the normal form of `aaaab` is `aab`, the value that
test 033 expects. -/
theorem seed_normal_form_aaaab :
    normal_form_is seed_presentation.alphabet_size (.todd_coxeter seed_todd_coxeter)
      [0, 0, 0, 0, 1] [0, 0, 1] := by
  refine ⟨by decide, by decide, by decide, ?_⟩
  intro y hv hl hc
  have hmem := (mem_words_up_to_bound seed_presentation.alphabet_size
    seed_todd_coxeter.bound y).mpr ⟨hv, hl⟩
  have hall : ∀ z ∈ words_from seed_presentation.alphabet_size 0
      (seed_todd_coxeter.bound + 1),
      seed_todd_coxeter.word_to_class z = seed_todd_coxeter.word_to_class [0, 0, 0, 0, 1] →
        lex_less z [0, 0, 1] = false := by decide
  exact hall y hmem hc

/-! ## The claims about `FpSemigroup` -/

/-- C7: for an `FpSemigroup` whose answering engine is confluent (a
Knuth-Bendix rewriting system over the alphabet, equivalent to the
presentation's congruence) or finished (a Todd-Coxeter coset table), and for
all words `u` and `v` over the alphabet: both normal forms exist, and
`equal_to(u, v)` holds if and only if `normal_form(u)` and `normal_form(v)` are
the same word. -/
theorem C7_equal_to_iff_normal_form (S : FpSemigroup) (E : Engine) (hE : E.answers S)
    (u v : word_type) (hu : valid_word S.alphabet_size u = true)
    (hv : valid_word S.alphabet_size v = true) :
    (∃ x, normal_form_is S.alphabet_size E u x) ∧
    (∃ y, normal_form_is S.alphabet_size E v y) ∧
    (S.equal_to u v ↔
      ∀ x y, normal_form_is S.alphabet_size E u x →
        normal_form_is S.alphabet_size E v y → x = y) := by
  cases E with
  | knuth_bendix R =>
    obtain ⟨hR, hconf, hsound, hcomplete⟩ := hE
    obtain ⟨a, ha, hua⟩ := hconf u hu
    obtain ⟨b, hb, hub⟩ := hconf v hv
    refine ⟨⟨a, ha⟩, ⟨b, hb⟩, ?_, ?_⟩
    · intro h x y hx hy
      obtain ⟨z, h1, h2⟩ :=
        common_normal_form hR hconf (congruent_of_generators hcomplete h) hu
      rw [hua x hx, hub y hy, ← hua z h1, ← hub z h2]
    · intro h
      have e := h a b ha hb
      rw [← e] at hb
      exact congruent_of_generators hsound
        (congruent.trans _ _ _ (congruent_of_steps ha.1)
          (congruent.symm _ _ (congruent_of_steps hb.1)))
  | todd_coxeter T =>
    have hT : T.finished S := hE
    obtain ⟨a, ha⟩ := exists_least_in_class T S hT u hu
    obtain ⟨b, hb⟩ := exists_least_in_class T S hT v hv
    refine ⟨⟨a, ha⟩, ⟨b, hb⟩, ?_, ?_⟩
    · intro h x y hx hy
      exact least_in_class_unique T S.alphabet_size
        ((congruent_iff_word_to_class T S hT u v hu).mp h) hx hy
    · intro h
      have e := h a b ha hb
      refine (congruent_iff_word_to_class T S hT u v hu).mpr ?_
      rw [← ha.2.2.1, ← hb.2.2.1, e]

/-- Witness of C7 for both kinds of engine: the Knuth-Bendix system of seed
scenario 4 (rules `aa = a`, `ab = a`, `ba = a`, confluent as they stand) with
`u = ab`, `v = a`, and the finished coset table of the seed presentation
`aaa = a`, `a = bb` with `u = aaaab`, `v = aab`, where the normal form of
`aaaab` is `aab`. -/
theorem C7_equal_to_iff_normal_form_witness :
    ((∃ x, normal_form_is scenario_four.alphabet_size
        (.knuth_bendix scenario_four.rules) [0, 1] x) ∧
      (∃ y, normal_form_is scenario_four.alphabet_size
        (.knuth_bendix scenario_four.rules) [0] y) ∧
      (scenario_four.equal_to [0, 1] [0] ↔
        ∀ x y, normal_form_is scenario_four.alphabet_size
            (.knuth_bendix scenario_four.rules) [0, 1] x →
          normal_form_is scenario_four.alphabet_size
            (.knuth_bendix scenario_four.rules) [0] y → x = y)) ∧
    ((∃ x, normal_form_is seed_presentation.alphabet_size
        (.todd_coxeter seed_todd_coxeter) [0, 0, 0, 0, 1] x) ∧
      (∃ y, normal_form_is seed_presentation.alphabet_size
        (.todd_coxeter seed_todd_coxeter) [0, 0, 1] y) ∧
      (seed_presentation.equal_to [0, 0, 0, 0, 1] [0, 0, 1] ↔
        ∀ x y, normal_form_is seed_presentation.alphabet_size
            (.todd_coxeter seed_todd_coxeter) [0, 0, 0, 0, 1] x →
          normal_form_is seed_presentation.alphabet_size
            (.todd_coxeter seed_todd_coxeter) [0, 0, 1] y → x = y)) ∧
    scenario_four.equal_to [0, 1] [0] ∧
    normal_form_is seed_presentation.alphabet_size (.todd_coxeter seed_todd_coxeter)
      [0, 0, 0, 0, 1] [0, 0, 1] :=
  ⟨C7_equal_to_iff_normal_form scenario_four (.knuth_bendix scenario_four.rules)
      ⟨scenario_four_valid_rules, scenario_four_confluent,
        fun r hr => congruent.rel r.1 r.2 hr, fun r hr => congruent.rel r.1 r.2 hr⟩
      [0, 1] [0] (by decide) (by decide),
    C7_equal_to_iff_normal_form seed_presentation (.todd_coxeter seed_todd_coxeter)
      seed_todd_coxeter_finished [0, 0, 0, 0, 1] [0, 0, 1] (by decide) (by decide),
    congruent.rel _ _ (by simp [scenario_four]), seed_normal_form_aaaab⟩

/-- C8: for the presentation with alphabet `{a, b}` and rules `aaa = a`,
`a = bb` (built by two calls of `add_rule`), `size()` is 5 and
`is_obviously_infinite()` is false. -/
theorem C8_seed_size_and_finiteness :
    ((FpSemigroup.mk 2 [] false).add_rule [0, 0, 0] [0]).bind
        (fun S => S.add_rule [0] [1, 1]) = .ok seed_presentation ∧
    seed_presentation.size_is 5 ∧
    seed_presentation.is_obviously_infinite = false :=
  ⟨rfl, card_seed_quotient, by decide⟩

/-- C9: for an `FpSemigroup` with a non-empty alphabet and an empty relation
list, `is_obviously_infinite()` is true and `size()` is `POSITIVE_INFINITY`. -/
theorem C9_no_rules_infinite (n : Nat) (hn : 0 < n) (st : Bool) :
    (FpSemigroup.mk n [] st).is_obviously_infinite = true ∧
    (FpSemigroup.mk n [] st).size_is ⊤ := by
  constructor
  · simp only [FpSemigroup.is_obviously_infinite, List.any_eq_true, List.mem_range]
    refine ⟨0, hn, ?_⟩
    simp [FpSemigroup.bounded_letter, FpSemigroup.identified_with_bounded]
  · have := infinite_quotient_of_no_rules n hn st
    exact ENat.card_eq_top_of_infinite

/-- Witness of C9 at the alphabet `{a, b}` of test 039, before any rule is
added. -/
theorem C9_no_rules_infinite_witness :
    (FpSemigroup.mk 2 [] false).is_obviously_infinite = true ∧
    (FpSemigroup.mk 2 [] false).size_is ⊤ :=
  C9_no_rules_infinite 2 (by decide) false

/-- C10: after any sequence of `add_rule` calls on an `FpSemigroup`, the range
`cbegin_rules() .. cend_rules()` holds the rules that were there before,
followed by exactly the pairs whose call succeeded, unchanged and in call
order; when the presentation is not frozen and every letter is in range, these
are all the pairs of the sequence.  A pair given as strings over a charset
reads back as the same strings. -/
theorem C10_rules_in_insertion_order (S : FpSemigroup) (rs : List relation_type) :
    (rs.foldl FpSemigroup.call_add_rule S).rules_range
      = S.rules_range ++ rs.filter (fun r => (S.add_rule r.1 r.2).isOk) ∧
    ((S.started = false ∧ ∀ r ∈ rs, valid_word S.alphabet_size r.1 = true ∧
        valid_word S.alphabet_size r.2 = true) →
      (rs.foldl FpSemigroup.call_add_rule S).rules_range = S.rules_range ++ rs) ∧
    ∀ (cs s t : List Char) (u v : word_type), string_to_word cs s = some u →
      string_to_word cs t = some v → (word_to_string cs u, word_to_string cs v) = (s, t) := by
  refine ⟨foldl_call_add_rule S rs, ?_, ?_⟩
  · rintro ⟨hs, hv⟩
    have hall : (rs.filter fun r => (S.add_rule r.1 r.2).isOk) = rs := by
      rw [List.filter_eq_self]
      intro r hr
      rw [add_rule_isOk, hs, (hv r hr).1, (hv r hr).2]
      rfl
    have := foldl_call_add_rule S rs
    rw [hall] at this
    exact this
  · intro cs s t u v hu hv
    rw [word_to_string_of_string_to_word cs s u hu, word_to_string_of_string_to_word cs t v hv]

/-- Witness of C10 at test 042: on the alphabet `ab`, adding `aa = a`, `ab = a`
and `ba = a` yields these three pairs in this order. -/
theorem C10_rules_in_insertion_order_witness :
    string_to_word ['a', 'b'] "aa".toList = some [0, 0] ∧
    string_to_word ['a', 'b'] "ab".toList = some [0, 1] ∧
    string_to_word ['a', 'b'] "ba".toList = some [1, 0] ∧
    string_to_word ['a', 'b'] "a".toList = some [0] ∧
    ([([0, 0], [0]), ([0, 1], [0]), ([1, 0], [0])].foldl FpSemigroup.call_add_rule
        (FpSemigroup.mk 2 [] false)).rules_range
      = [([0, 0], [0]), ([0, 1], [0]), ([1, 0], [0])] ∧
    (word_to_string ['a', 'b'] [0, 1], word_to_string ['a', 'b'] [0])
      = ("ab".toList, "a".toList) :=
  ⟨by decide, by decide, by decide, by decide,
    (C10_rules_in_insertion_order (FpSemigroup.mk 2 [] false)
      [([0, 0], [0]), ([0, 1], [0]), ([1, 0], [0])]).2.1 ⟨rfl, by decide⟩,
    (C10_rules_in_insertion_order (FpSemigroup.mk 2 [] false) []).2.2 ['a', 'b'] "ab".toList
      "a".toList [0, 1] [0] (by decide) (by decide)⟩


/-! ## Entries by index -/

theorem getElem?_extend (n : Nat) (hn : 0 < n) (ws : List word_type) (k : Nat) :
    (extend n ws)[k]? = (ws[k / n]?).map fun w => w ++ [k % n] := by
  induction ws generalizing k with
  | nil => simp [extend]
  | cons w ws ih =>
    have hsplit : extend n (w :: ws)
        = (List.range n).map (fun i => w ++ [i]) ++ extend n ws := by
      simp [extend]
    rw [hsplit]
    by_cases hk : k < n
    · rw [List.getElem?_append_left (by simpa using hk)]
      simp [Nat.div_eq_of_lt hk, Nat.mod_eq_of_lt hk, hk]
    · rw [List.getElem?_append_right (by simpa using Nat.le_of_not_lt hk)]
      have hlen : ((List.range n).map fun i => w ++ [i]).length = n := by simp
      have hdiv : k / n = (k - n) / n + 1 := by
        have := Nat.sub_add_cancel (Nat.le_of_not_lt hk)
        conv_lhs => rw [← this]
        exact Nat.add_div_right _ hn
      have hmod : (k - n) % n = k % n := by
        have := Nat.sub_add_cancel (Nat.le_of_not_lt hk)
        conv_rhs => rw [← this]
        simp
      rw [hlen, ih, hdiv, hmod]
      simp

theorem getElem?_words_of_length (n L k : Nat) (hk : k < n ^ L) :
    (words_of_length n L)[k]? = some (base_digits n L k) := by
  induction L generalizing k with
  | zero =>
    have : k = 0 := by simpa using hk
    subst this
    rfl
  | succ L ih =>
    have hn : 0 < n := by
      rcases Nat.eq_zero_or_pos n with rfl | h
      · simp at hk
      · exact h
    have hdiv : k / n < n ^ L := by
      rw [Nat.div_lt_iff_lt_mul hn]
      simpa [Nat.pow_succ] using hk
    rw [words_of_length, getElem?_extend n hn, ih _ hdiv]
    rfl

theorem length_base_digits (n L k : Nat) : (base_digits n L k).length = L := by
  induction L generalizing k with
  | zero => rfl
  | succ L ih => simp [base_digits, ih]

theorem value_base_digits (n L k : Nat) (hk : k < n ^ L) :
    (base_digits n L k).foldl (fun a d => a * n + d) 0 = k := by
  induction L generalizing k with
  | zero =>
    have : k = 0 := by simpa using hk
    subst this
    rfl
  | succ L ih =>
    have hn : 0 < n := by
      rcases Nat.eq_zero_or_pos n with rfl | h
      · simp at hk
      · exact h
    have hdiv : k / n < n ^ L := by
      rw [Nat.div_lt_iff_lt_mul hn]
      simpa [Nat.pow_succ] using hk
    rw [base_digits, List.foldl_append, ih _ hdiv]
    simp only [List.foldl_cons, List.foldl_nil]
    exact Nat.div_add_mod' k n

theorem words_from_succ_left (n lo c : Nat) :
    words_from n lo (c + 1) = words_of_length n lo ++ words_from n (lo + 1) c := by
  rw [Nat.add_comm c 1, words_from_add]
  simp [words_from]

theorem getElem?_words_from (n m L k : Nat) (hL1 : 1 ≤ L) (hL2 : L ≤ m)
    (hk : k < n ^ L) :
    (words_from n 1 m)[(words_from n 1 (L - 1)).length + k]?
      = some (base_digits n L k) := by
  have hm : m = (L - 1) + ((m - L) + 1) := by omega
  have hlo : 1 + (L - 1) = L := by omega
  rw [hm, words_from_add, hlo, words_from_succ_left,
    List.getElem?_append_right (Nat.le_add_right _ _), Nat.add_sub_cancel_left,
    List.getElem?_append_left (by rw [length_words_of_length]; exact hk)]
  exact getElem?_words_of_length n L k hk

theorem cut_at_one (n maxlen : Nat) : cut_at n 1 maxlen = 0 := by
  unfold cut_at
  rw [if_neg (by omega)]

/-! ## Further claims about `shortlex_words` -/

/-- C11: for `nr_gens ≥ 1`, `maxlen ≥ 1`, `1 ≤ L ≤ maxlen` and
`k < nr_gens^L`, the entry of `shortlex_words(nr_gens, 1, maxlen)` at index
`(nr_gens^1 + ... + nr_gens^(L-1)) + k` is the word of length `L` made of the
`L` base-`nr_gens` digits of `k`, most significant digit first (the call
returns for `maxlen` below the largest `size_t`). -/
theorem C11_entry_is_digits (nr_gens maxlen L k : Nat) (_hn : 1 ≤ nr_gens)
    (hm : 1 ≤ maxlen) (hL1 : 1 ≤ L) (hL2 : L ≤ maxlen) (hk : k < nr_gens ^ L) :
    (maxlen < SIZE_MAX → ∃ out, ∀ fuel, maxlen - 1 ≤ fuel →
        shortlex_words fuel nr_gens 1 maxlen = .ok out) ∧
    (∀ fuel out, shortlex_words fuel nr_gens 1 maxlen = .ok out →
      out[(∑ l in Finset.Icc 1 (L - 1), nr_gens ^ l) + k]?
        = some (base_digits nr_gens L k)) ∧
    (base_digits nr_gens L k).length = L ∧
    (∀ d ∈ base_digits nr_gens L k, d < nr_gens) ∧
    (base_digits nr_gens L k).foldl (fun a d => a * nr_gens + d) 0 = k := by
  have hidx : ∀ fuel out, shortlex_words fuel nr_gens 1 maxlen = .ok out →
      out[(∑ l in Finset.Icc 1 (L - 1), nr_gens ^ l) + k]?
        = some (base_digits nr_gens L k) := by
    intro fuel out h
    have hmax : max maxlen 1 = maxlen := by omega
    rw [shortlex_words_ok h, cut_at_one, List.drop_zero, hmax, sum_Icc_pow,
      ← length_words_from]
    exact getElem?_words_from nr_gens maxlen L k hL1 hL2 hk
  refine ⟨shortlex_words_returns nr_gens 1 maxlen, hidx, length_base_digits _ _ _, ?_,
    value_base_digits _ _ _ hk⟩
  intro d hd
  have hmem : base_digits nr_gens L k ∈ words_of_length nr_gens L :=
    List.getElem?_mem (getElem?_words_of_length nr_gens L k hk)
  exact ((mem_words_of_length nr_gens L _).mp hmem).2 d hd

/-- Witness of C11 at `shortlex_words(2, 1, 3)`, `L = 3`, `k = 5`: the entry at
index `2 + 4 + 5 = 11` is `[1, 0, 1]`, the binary digits of 5. -/
theorem C11_entry_is_digits_witness :
    shortlex_words 2 2 1 3
      = .ok [[0], [1], [0, 0], [0, 1], [1, 0], [1, 1], [0, 0, 0], [0, 0, 1], [0, 1, 0],
          [0, 1, 1], [1, 0, 0], [1, 0, 1], [1, 1, 0], [1, 1, 1]] ∧
    ([[0], [1], [0, 0], [0, 1], [1, 0], [1, 1], [0, 0, 0], [0, 0, 1], [0, 1, 0],
          [0, 1, 1], [1, 0, 0], [1, 0, 1], [1, 1, 0], [1, 1, 1]] : List word_type)[
        (∑ l in Finset.Icc 1 (3 - 1), 2 ^ l) + 5]? = some (base_digits 2 3 5) ∧
    base_digits 2 3 5 = [1, 0, 1] :=
  ⟨by decide,
    (C11_entry_is_digits 2 3 3 5 (by decide) (by decide) (by decide) (by decide)
      (by decide)).2.1 2
      [[0], [1], [0, 0], [0, 1], [1, 0], [1, 1], [0, 0, 0], [0, 0, 1], [0, 1, 0],
        [0, 1, 1], [1, 0, 0], [1, 0, 1], [1, 1, 0], [1, 1, 1]] (by decide),
    by decide⟩

theorem sum_Icc_pow_from (n a b : Nat) :
    ∑ l in Finset.Icc a b, n ^ l = ∑ l in Finset.range (b + 1 - a), n ^ (a + l) := by
  rw [← Nat.Ico_succ_right, Finset.sum_Ico_eq_sum_range]

/-- C12: for `1 ≤ minlen ≤ maxlen` the number of words returned by
`shortlex_words(nr_gens, minlen, maxlen)` is exactly the sum of `nr_gens^l`
for `l` from `minlen` to `maxlen`, computed in unbounded naturals (the call
returns for `maxlen` below the largest `size_t`). -/
theorem C12_number_of_words (nr_gens minlen maxlen : Nat) (h1 : 1 ≤ minlen)
    (h2 : minlen ≤ maxlen) :
    (maxlen < SIZE_MAX → ∃ out, ∀ fuel, maxlen - 1 ≤ fuel →
        shortlex_words fuel nr_gens minlen maxlen = .ok out) ∧
    ∀ fuel out, shortlex_words fuel nr_gens minlen maxlen = .ok out →
      out.length = ∑ l in Finset.Icc minlen maxlen, nr_gens ^ l := by
  refine ⟨shortlex_words_returns nr_gens minlen maxlen, ?_⟩
  intro fuel out h
  rw [shortlex_words_ok h, drop_cut_at nr_gens minlen maxlen h1 h2, length_words_from,
    sum_Icc_pow_from]

/-- Witness of C12 at `shortlex_words(3, 2, 3)`: `3^2 + 3^3 = 36` words. -/
theorem C12_number_of_words_witness :
    ∃ out, shortlex_words 2 3 2 3 = .ok out ∧
      out.length = ∑ l in Finset.Icc 2 3, 3 ^ l ∧ ∑ l in Finset.Icc 2 3, 3 ^ l = 36 :=
  ⟨(words_from 3 1 3).drop (cut_at 3 2 3), by decide,
    (C12_number_of_words 3 2 3 (by decide) (by decide)).2 2 _ (by decide), by decide⟩

theorem cut_at_of_lt (n minlen maxlen : Nat) (h : maxlen < minlen) :
    cut_at n minlen maxlen = 0 := by
  unfold cut_at
  rw [if_neg (by omega)]

theorem words_from_one_ne_nil (n m : Nat) (hn : 1 ≤ n) (hm : 1 ≤ m) :
    [0] ∈ words_from n 1 m := by
  rw [mem_words_from]
  refine ⟨⟨by simp, by simp; omega⟩, ?_⟩
  intro x hx
  rw [List.mem_singleton.mp hx]
  exact hn

/-- C13 as stated fails at `nr_gens = 1`, `minlen = 1`, `maxlen = 0`: here
`minlen > maxlen` and `nr_gens ≥ 1`, every budget returns `[[0]]`, and no word
of this list is shorter than `minlen = 1`. -/
theorem C13_counterexample :
    (0 : Nat) < 1 ∧ (1 : Nat) ≤ 1 ∧
    (¬ ∃ fuel, shortlex_words fuel 1 1 0 ≠ .ok [[0]]) ∧
    ¬ ∃ w ∈ ([[0]] : List word_type), w.length < 1 := by
  refine ⟨by decide, by decide, ?_, by decide⟩
  rintro ⟨fuel, h⟩
  apply h
  rw [shortlex_words_eq, if_pos ⟨by decide, by omega⟩]
  rfl

/-- C13 (amended): for `minlen > maxlen` no cut is applied: the outcome of
`shortlex_words(nr_gens, minlen, maxlen)` is that of
`shortlex_words(nr_gens, 1, maxlen)` with every budget, and the call returns
(`minlen` being a `size_t`); for `nr_gens ≥ 1` the returned list is non-empty,
and for `minlen ≥ 2` it contains a word shorter than `minlen`. -/
theorem C13_no_cut_when_minlen_above_maxlen (nr_gens minlen maxlen : Nat)
    (h : maxlen < minlen) :
    (∀ fuel, shortlex_words fuel nr_gens minlen maxlen
        = shortlex_words fuel nr_gens 1 maxlen) ∧
    (minlen ≤ SIZE_MAX → ∃ out, ∀ fuel, maxlen - 1 ≤ fuel →
        shortlex_words fuel nr_gens minlen maxlen = .ok out) ∧
    ∀ fuel out, shortlex_words fuel nr_gens minlen maxlen = .ok out → 1 ≤ nr_gens →
      out ≠ [] ∧ (2 ≤ minlen → ∃ w ∈ out, w.length < minlen) := by
  refine ⟨?_, ?_, ?_⟩
  · intro fuel
    rw [shortlex_words_eq, shortlex_words_eq, cut_at_of_lt _ _ _ h, cut_at_one]
  · intro hmin
    exact shortlex_words_returns nr_gens minlen maxlen (by omega)
  · intro fuel out ho hn
    have hmem : [0] ∈ out := by
      rw [shortlex_words_ok ho, cut_at_of_lt _ _ _ h, List.drop_zero]
      exact words_from_one_ne_nil nr_gens _ hn (by omega)
    refine ⟨List.ne_nil_of_mem hmem, ?_⟩
    intro h2
    exact ⟨[0], hmem, by simpa using h2⟩

/-- Witness of the amended C13 at `shortlex_words(2, 3, 2)`: the six words of
length 1 and 2 are returned, as for `minlen = 1`, and `[0]` is shorter than
`minlen = 3`. -/
theorem C13_no_cut_when_minlen_above_maxlen_witness :
    shortlex_words 1 2 3 2 = .ok [[0], [1], [0, 0], [0, 1], [1, 0], [1, 1]] ∧
    shortlex_words 1 2 3 2 = shortlex_words 1 2 1 2 ∧
    (([[0], [1], [0, 0], [0, 1], [1, 0], [1, 1]] : List word_type) ≠ [] ∧
      ((2 : Nat) ≤ 3 → ∃ w ∈ ([[0], [1], [0, 0], [0, 1], [1, 0], [1, 1]] : List word_type),
        w.length < 3)) :=
  ⟨by decide, (C13_no_cut_when_minlen_above_maxlen 2 3 2 (by decide)).1 1,
    (C13_no_cut_when_minlen_above_maxlen 2 3 2 (by decide)).2.2 1
      [[0], [1], [0, 0], [0, 1], [1, 0], [1, 1]] (by decide) (by decide)⟩

/-- C14: for `maxlen ≤ 1` (also `maxlen = 0`) and every `nr_gens` and `minlen`,
every budget returns exactly the single-letter words
`[[0], [1], ..., [nr_gens - 1]]`; with `maxlen = 0` and `nr_gens ≥ 1` this list
contains a word longer than `maxlen`. -/
theorem C14_single_letters_when_maxlen_at_most_one (nr_gens minlen maxlen : Nat)
    (h : maxlen ≤ 1) :
    (∀ fuel, shortlex_words fuel nr_gens minlen maxlen
        = .ok ((List.range nr_gens).map fun i => [i])) ∧
    (maxlen = 0 → 1 ≤ nr_gens →
      ∃ w ∈ (List.range nr_gens).map (fun i => ([i] : word_type)), maxlen < w.length) := by
  constructor
  · intro fuel
    have hS : maxlen < SIZE_MAX := by
      have : SIZE_MAX = 2 ^ 64 - 1 := rfl
      omega
    have hmax : max maxlen 1 = 1 := by omega
    have hc : cut_at nr_gens minlen maxlen = 0 := by
      unfold cut_at
      rw [if_neg (by omega)]
    rw [shortlex_words_eq, if_pos ⟨hS, by omega⟩, hmax, hc]
    simp [words_from, words_of_length, extend]
  · intro h0 hn
    exact ⟨[0], by simp; omega, by simp [h0]⟩

/-- Witness of C14 at `shortlex_words(3, 7, 0)`: the result is `[[0], [1], [2]]`,
whose words are longer than `maxlen = 0`. -/
theorem C14_single_letters_when_maxlen_at_most_one_witness :
    shortlex_words 0 3 7 0 = .ok [[0], [1], [2]] ∧
    ∃ w ∈ (List.range 3).map (fun i => ([i] : word_type)), 0 < w.length :=
  ⟨(C14_single_letters_when_maxlen_at_most_one 3 7 0 (by decide)).1 0,
    (C14_single_letters_when_maxlen_at_most_one 3 7 0 (by decide)).2 rfl (by decide)⟩

theorem words_from_zero_gens (lo c : Nat) (hlo : 1 ≤ lo) : words_from 0 lo c = [] := by
  rw [List.eq_nil_iff_forall_not_mem]
  intro w hw
  obtain ⟨⟨h1, -⟩, h2⟩ := (mem_words_from 0 lo c w).mp hw
  cases w with
  | nil => simp at h1; omega
  | cons x w => exact absurd (h2 x (by simp)) (by omega)

/-- For an empty alphabet the call returns the empty list whenever it returns,
and it returns when `maxlen` is below the largest `size_t`. -/
theorem shortlex_words_empty_alphabet (minlen maxlen : Nat) :
    (maxlen < SIZE_MAX → ∀ fuel, maxlen - 1 ≤ fuel →
        shortlex_words fuel 0 minlen maxlen = .ok []) ∧
    ∀ fuel out, shortlex_words fuel 0 minlen maxlen = .ok out → out = [] := by
  constructor
  · intro hmax fuel hf
    rw [shortlex_words_eq, if_pos ⟨hmax, hf⟩, words_from_zero_gens _ _ (Nat.le_refl 1),
      List.drop_nil]
  · intro fuel out h
    rw [shortlex_words_ok h, words_from_zero_gens _ _ (Nat.le_refl 1), List.drop_nil]

/-- C15: the claim that `shortlex_words(0, minlen, maxlen)` returns the empty
list for every `minlen` and `maxlen` holds for every `maxlen` below the largest
`size_t`, where every budget of at least `maxlen - 1` passes returns `[]`; at
`maxlen = 2^64 - 1` the call `shortlex_words(0, 0, maxlen)` returns nothing,
whatever the budget, because after `i = 2^64 - 1` the counter wraps to `0` and
the loop test `i <= maxlen` holds again. -/
theorem C15_empty_alphabet_no_return_at_size_max :
    SIZE_MAX = 18446744073709551615 ∧
    (∀ fuel, shortlex_words fuel 0 0 SIZE_MAX = .no_fuel) ∧
    (¬ ∃ fuel out, shortlex_words fuel 0 0 SIZE_MAX = .ok out) ∧
    ∀ minlen maxlen, maxlen < SIZE_MAX → ∀ fuel, maxlen - 1 ≤ fuel →
      shortlex_words fuel 0 minlen maxlen = .ok [] := by
  refine ⟨by decide, ?_, ?_, ?_⟩
  · intro fuel
    rw [shortlex_words_eq, if_neg (by omega)]
  · rintro ⟨fuel, out, h⟩
    rw [shortlex_words_eq, if_neg (by omega)] at h
    cases h
  · intro minlen maxlen
    exact (shortlex_words_empty_alphabet minlen maxlen).1

theorem cut_at_self (n m : Nat) (hm : 1 ≤ m) :
    cut_at n (m + 1) (m + 1) = (words_from n 1 m).length := by
  unfold cut_at
  rw [if_pos ⟨by omega, Nat.le_refl _⟩, Nat.add_sub_cancel]

theorem drop_last_layer (n m : Nat) (hm : 1 ≤ m) :
    (words_from n 1 (max (m + 1) 1)).drop (cut_at n (m + 1) (m + 1))
      = words_of_length n (m + 1) := by
  have h1 : max (m + 1) 1 = m + 1 := by omega
  rw [h1, cut_at_self n m hm, drop_words_from]
  simp [words_from, Nat.add_comm]

/-- C16: for `m ≥ 1`, `shortlex_words(n, 1, m+1)` is `shortlex_words(n, 1, m)`
followed by `shortlex_words(n, m+1, m+1)`: the outcomes agree with every
budget, all three calls return when `m + 1` is below the largest `size_t`, the
first list is a prefix of the long one, and the appended part has exactly
`n^(m+1)` entries. -/
theorem C16_one_more_length (n m : Nat) (hm : 1 ≤ m) :
    (∀ fuel, shortlex_words fuel n 1 (m + 1)
        = (shortlex_words fuel n 1 m).andThen fun a =>
            (shortlex_words fuel n (m + 1) (m + 1)).andThen fun b => .ok (a ++ b)) ∧
    (m + 1 < SIZE_MAX → ∃ a b, ∀ fuel, m ≤ fuel →
        shortlex_words fuel n 1 m = .ok a ∧
        shortlex_words fuel n (m + 1) (m + 1) = .ok b ∧
        shortlex_words fuel n 1 (m + 1) = .ok (a ++ b)) ∧
    ∀ fuel1 fuel2 fuel3 a b c, shortlex_words fuel1 n 1 m = .ok a →
      shortlex_words fuel2 n (m + 1) (m + 1) = .ok b →
      shortlex_words fuel3 n 1 (m + 1) = .ok c →
        c = a ++ b ∧ a <+: c ∧ b.length = n ^ (m + 1) := by
  have ha : (words_from n 1 (max m 1)).drop (cut_at n 1 m) = words_from n 1 m := by
    have : max m 1 = m := by omega
    rw [cut_at_one, List.drop_zero, this]
  have hc : (words_from n 1 (max (m + 1) 1)).drop (cut_at n 1 (m + 1))
      = words_from n 1 m ++ words_of_length n (m + 1) := by
    have : max (m + 1) 1 = m + 1 := by omega
    rw [cut_at_one, List.drop_zero, this]
    simp [words_from, Nat.add_comm]
  have hb := drop_last_layer n m hm
  refine ⟨?_, ?_, ?_⟩
  · intro fuel
    rw [shortlex_words_eq, shortlex_words_eq fuel n 1 m,
      shortlex_words_eq fuel n (m + 1) (m + 1), ha, hb, hc]
    by_cases h1 : m + 1 < SIZE_MAX ∧ m + 1 - 1 ≤ fuel
    · have h2 : m < SIZE_MAX ∧ m - 1 ≤ fuel := ⟨by omega, by omega⟩
      simp only [if_pos h1, if_pos h2, Outcome.andThen]
    · by_cases h2 : m < SIZE_MAX ∧ m - 1 ≤ fuel
      · simp only [if_neg h1, if_pos h2, Outcome.andThen]
      · simp only [if_neg h1, if_neg h2, Outcome.andThen]
  · intro hmax
    refine ⟨words_from n 1 m, words_of_length n (m + 1), ?_⟩
    intro fuel hf
    have h1 : m + 1 < SIZE_MAX ∧ m + 1 - 1 ≤ fuel := ⟨hmax, by omega⟩
    have h2 : m < SIZE_MAX ∧ m - 1 ≤ fuel := ⟨by omega, by omega⟩
    rw [shortlex_words_eq, shortlex_words_eq fuel n (m + 1) (m + 1),
      shortlex_words_eq fuel n 1 (m + 1), ha, hb, hc]
    simp only [if_pos h1, if_pos h2, and_self]
  · intro fuel1 fuel2 fuel3 a b c h1 h2 h3
    rw [shortlex_words_ok h1, shortlex_words_ok h2, shortlex_words_ok h3, ha, hb, hc]
    exact ⟨rfl, List.prefix_append _ _, length_words_of_length n (m + 1)⟩

/-- Witness of C16 at `n = 2`, `m = 1`: `shortlex_words(2, 1, 2)` is
`shortlex_words(2, 1, 1)` followed by the `2^2` words of
`shortlex_words(2, 2, 2)`. -/
theorem C16_one_more_length_witness :
    shortlex_words 1 2 1 1 = .ok [[0], [1]] ∧
    shortlex_words 1 2 2 2 = .ok [[0, 0], [0, 1], [1, 0], [1, 1]] ∧
    shortlex_words 1 2 1 2 = .ok [[0], [1], [0, 0], [0, 1], [1, 0], [1, 1]] ∧
    (([[0], [1], [0, 0], [0, 1], [1, 0], [1, 1]] : List word_type)
        = [[0], [1]] ++ [[0, 0], [0, 1], [1, 0], [1, 1]] ∧
      ([[0], [1]] : List word_type) <+: [[0], [1], [0, 0], [0, 1], [1, 0], [1, 1]] ∧
      ([[0, 0], [0, 1], [1, 0], [1, 1]] : List word_type).length = 2 ^ (1 + 1)) :=
  ⟨by decide, by decide, by decide,
    (C16_one_more_length 2 1 (by decide)).2.2 1 1 1 [[0], [1]]
      [[0, 0], [0, 1], [1, 0], [1, 1]] [[0], [1], [0, 0], [0, 1], [1, 0], [1, 1]]
      (by decide) (by decide) (by decide)⟩

/-! ## Safety and termination -/

theorem initial_state_eq (n minlen : Nat) : initial_state n = state_at n minlen 1 := by
  rw [← init_state n minlen]
  simp [initial_state, List.range_eq_range']

theorem for_lt_push_letter_initial (n : Nat) :
    for_lt push_letter n 0 [] = .ok (initial_state n).out := by
  rw [for_lt_push_letter]
  simp [initial_state, List.range_eq_range']

theorem outer_body_invariant (n minlen : Nat) (s : State) (h : loop_invariant s) :
    ∃ s', outer_body n minlen s = .ok s' ∧ loop_invariant s' ∧
      s'.out = s.out ++ extend n ((s.out.drop s.frst).take (s.last - s.frst)) := by
  obtain ⟨h1, h2, h3⟩ := h
  rw [outer_body, loop_j_eq n _ _ _ h1 h2]
  refine ⟨_, rfl, ⟨?_, ?_, ?_⟩, rfl⟩
  · simp only [List.length_append]; omega
  · exact Nat.le_refl _
  · simp only [List.length_append]
    split <;> omega

theorem length_extend_take (n : Nat) (s : State) (h1 : s.frst ≤ s.last)
    (h2 : s.last ≤ s.out.length) :
    (extend n ((s.out.drop s.frst).take (s.last - s.frst))).length
      = (s.last - s.frst) * n := by
  rw [length_extend, List.length_take, List.length_drop]
  congr 1
  omega

/-- C17: for every `nr_gens`, `minlen` and `maxlen` the access `out.at(j)`
never fails and the final erase is in range.  The loop invariant
(`frst ≤ last ≤ out.size()`, `cut ≤ last`) holds when the outer loop is entered
and after every pass; under it every `j` in `[frst, last)` is below
`out.size()`, the pass completes without a throw, and `cut ≤ out.size()`; so no
budget makes the call end in a throw or in an erase past the end. -/
theorem C17_at_and_erase_in_range (nr_gens minlen maxlen : Nat) :
    (for_lt push_letter nr_gens 0 [] = .ok (initial_state nr_gens).out ∧
      loop_invariant (initial_state nr_gens)) ∧
    (∀ s, loop_invariant s →
      (∀ j, s.frst ≤ j → j < s.last → j < s.out.length) ∧
      (∃ s', outer_body nr_gens minlen s = .ok s' ∧ loop_invariant s') ∧
      s.cut ≤ s.out.length ∧ erase_front s.cut s.out = .ok (s.out.drop s.cut)) ∧
    ∀ fuel, shortlex_words fuel nr_gens minlen maxlen ≠ .at_throws ∧
      shortlex_words fuel nr_gens minlen maxlen ≠ .erase_past_end := by
  refine ⟨⟨for_lt_push_letter_initial nr_gens, ?_⟩, ?_, ?_⟩
  · simp [loop_invariant, initial_state]
  · intro s hs
    obtain ⟨s', h1, h2, -⟩ := outer_body_invariant nr_gens minlen s hs
    obtain ⟨a, b, c⟩ := hs
    refine ⟨fun j _ hj => by omega, ⟨s', h1, h2⟩, by omega, ?_⟩
    rw [erase_front, if_pos (by omega)]
  · intro fuel
    rw [shortlex_words_eq]
    by_cases hc : maxlen < SIZE_MAX ∧ maxlen - 1 ≤ fuel
    · rw [if_pos hc]
      exact ⟨nofun, nofun⟩
    · rw [if_neg hc]
      exact ⟨nofun, nofun⟩

/-- Witness of C17 at `shortlex_words(2, 2, 2)`: one pass from the initial
state, whose invariant holds, ends without a throw in a state whose invariant
holds, and the call returns. -/
theorem C17_at_and_erase_in_range_witness :
    loop_invariant (initial_state 2) ∧
    (∃ s', outer_body 2 2 (initial_state 2) = .ok s' ∧ loop_invariant s') ∧
    shortlex_words 1 2 2 2 = .ok [[0, 0], [0, 1], [1, 0], [1, 1]] :=
  ⟨(C17_at_and_erase_in_range 2 2 2).1.2,
    ((C17_at_and_erase_in_range 2 2 2).2.1 (initial_state 2)
      (C17_at_and_erase_in_range 2 2 2).1.2).2.1,
    by decide⟩

/-- C18: for every `nr_gens` and `minlen` and every `maxlen` below the largest
`size_t` the call terminates: the outer loop makes exactly
`max(maxlen, 1) - 1` passes (that budget is enough and no smaller one is, and
the counter `i` ends at `2 + (max(maxlen, 1) - 1)`), and a pass started with
`frst ≤ last ≤ out.size()` visits only the entries of `[frst, last)` as they
were before the pass, appending `(last - frst) * nr_gens` words. -/
theorem C18_terminates (nr_gens minlen maxlen : Nat) (h : maxlen < SIZE_MAX) :
    (∀ fuel, max maxlen 1 - 1 ≤ fuel →
      (∃ out, shortlex_words fuel nr_gens minlen maxlen = .ok out) ∧
      ∃ s, outer_loop nr_gens minlen maxlen fuel (initial_state nr_gens) = .ok s ∧
        s.i = 2 + (max maxlen 1 - 1)) ∧
    (∀ fuel, fuel < max maxlen 1 - 1 →
      shortlex_words fuel nr_gens minlen maxlen = .no_fuel ∧
      outer_loop nr_gens minlen maxlen fuel (initial_state nr_gens) = .no_fuel) ∧
    ∀ s : State, s.frst ≤ s.last → s.last ≤ s.out.length →
      ∃ out, loop_j nr_gens s.frst s.last s.out = .ok out ∧
        out = s.out ++ extend nr_gens ((s.out.drop s.frst).take (s.last - s.frst)) ∧
        out.length = s.out.length + (s.last - s.frst) * nr_gens := by
  have hloop := fun fuel =>
    outer_loop_state_at nr_gens minlen maxlen h fuel 1 (Nat.le_refl 1) (by omega)
  refine ⟨?_, ?_, ?_⟩
  · intro fuel hf
    constructor
    · refine ⟨(words_from nr_gens 1 (max maxlen 1)).drop (cut_at nr_gens minlen maxlen), ?_⟩
      rw [shortlex_words_eq, if_pos ⟨h, by omega⟩]
    · refine ⟨state_at nr_gens minlen (max maxlen 1), ?_, ?_⟩
      · rw [initial_state_eq nr_gens minlen, hloop, if_pos (by omega)]
      · simp only [state_at]; omega
  · intro fuel hf
    constructor
    · rw [shortlex_words_eq, if_neg (by omega)]
    · rw [initial_state_eq nr_gens minlen, hloop, if_neg (by omega)]
  · intro s h1 h2
    refine ⟨_, loop_j_eq nr_gens _ _ _ h1 h2, rfl, ?_⟩
    rw [List.length_append, length_extend_take nr_gens s h1 h2]

/-- Witness of C18 at `shortlex_words(2, 1, 3)`: two passes are enough, one is
not, and the counter `i` ends at 4. -/
theorem C18_terminates_witness :
    ((∃ out, shortlex_words 2 2 1 3 = .ok out) ∧
      ∃ s, outer_loop 2 1 3 2 (initial_state 2) = .ok s ∧ s.i = 2 + (max 3 1 - 1)) ∧
    shortlex_words 1 2 1 3 = .no_fuel :=
  ⟨(C18_terminates 2 1 3 (by decide)).1 2 (by decide),
    ((C18_terminates 2 1 3 (by decide)).2.1 1 (by decide)).1⟩

end libsemigroups
